import Mathlib

/-!
Shallow embedding of the secret-share reconstruction program: the base
decoder `convertToDecimal`, the share parser `parseJsonInput`, the share
selector `selectShares`, the polynomial reconstructor
`reconstructPolynomial`, the constant-term extractor `findConstantTerm`,
and the polynomial formatter, translated from the JavaScript source.

JavaScript numbers are idealised as exact rationals (`ℚ`); `NaN` and
`undefined` are represented explicitly by the `JsVal` type.
`math.lusolve` (an external library routine that solves the linear system
`A·x = y` by LU decomposition) is modelled by exact Gaussian elimination
with pivoting, which on a nonsingular system returns the unique solution,
the same one LU decomposition returns over exact arithmetic.
-/

/-- A JavaScript value as it occurs in this program: a finite number
(idealised as an exact rational), `NaN`, or `undefined`. -/
inductive JsVal : Type where
  | num (q : ℚ)
  | nan
  | undef
deriving DecidableEq

/-- Digit interpretation used by JS `parseInt`: `0`-`9` are 0-9, and
letters are interpreted case-insensitively as 10-35. -/
def digitVal (c : Char) : Option ℕ :=
  if 48 ≤ c.toNat ∧ c.toNat ≤ 57 then some (c.toNat - 48)
  else if 97 ≤ c.toNat ∧ c.toNat ≤ 122 then some (c.toNat - 87)
  else if 65 ≤ c.toNat ∧ c.toNat ≤ 90 then some (c.toNat - 55)
  else none

/-- White-space characters skipped by JS `parseInt` (ASCII white space,
line terminators, no-break space, byte-order mark). -/
def isWS (c : Char) : Bool :=
  decide (c.toNat = 32 ∨ (9 ≤ c.toNat ∧ c.toNat ≤ 13) ∨ c.toNat = 160 ∨ c.toNat = 65279)

/-- Truncation of a rational toward zero, the integer part taken by the
`ToInt32` coercion. -/
def ratTrunc (q : ℚ) : ℤ := if 0 ≤ q then ⌊q⌋ else -⌊-q⌋

/-- The `ToInt32` coercion `parseInt` applies to its radix argument:
`NaN` and `undefined` become 0, finite numbers are truncated toward zero
and wrapped into `[-2^31, 2^31)`. -/
def toInt32 (v : JsVal) : ℤ :=
  match v with
  | .num q => (ratTrunc q + 2 ^ 31) % 2 ^ 32 - 2 ^ 31
  | .nan => 0
  | .undef => 0

/-- The longest leading run of characters that are valid digits in base
`R`, returned as digit values. -/
def takeDigits (R : ℕ) : List Char → List ℕ
  | [] => []
  | c :: cs =>
    match digitVal c with
    | some d => if d < R then d :: takeDigits R cs else []
    | none => []

/-- Positional value of a big-endian list of digit values in base `R`,
accumulated the way `parseInt` computes it. -/
def digitsVal (R : ℕ) (ds : List ℕ) : ℕ := ds.foldl (fun acc d => acc * R + d) 0

/-- Does a character list start with a `0x` / `0X` hexadecimal marker? -/
def startsWith0x : List Char → Bool
  | c0 :: c1 :: _ => decide (c0 = '0' ∧ (c1 = 'x' ∨ c1 = 'X'))
  | _ => false

/-- Radix validation, `0x` stripping, and digit accumulation of
`parseInt` (ECMA-262 19.2.5 steps 6-13), after white space and sign have
been consumed. -/
def parseIntBody (sign : ℤ) (cs1 : List Char) (R0 : ℤ) : JsVal :=
  if R0 ≠ 0 ∧ (R0 < 2 ∨ 36 < R0) then .nan
  else
    let hex := (R0 = 0 ∨ R0 = 16) ∧ startsWith0x cs1 = true
    let cs2 := if hex then cs1.drop 2 else cs1
    let R : ℕ := if hex then 16 else if R0 = 0 then 10 else R0.toNat
    let ds := takeDigits R cs2
    if ds = [] then .nan else .num ((sign * (digitsVal R ds : ℤ) : ℤ) : ℚ)

/-- Model of JavaScript `parseInt(string, radix)` (ECMA-262 19.2.5):
skip leading white space, consume an optional sign, validate the radix
through `ToInt32`, optionally strip a `0x` prefix, and decode the longest
leading run of valid digits, returning `NaN` when that run is empty or
the radix is out of range. -/
def parseIntJS (s : String) (radix : JsVal) : JsVal :=
  let cs0 := s.data.dropWhile (fun c => isWS c)
  let sign : ℤ := if cs0.head? = some '-' then -1 else 1
  let cs1 : List Char :=
    if cs0.head? = some '-' ∨ cs0.head? = some '+' then cs0.tail else cs0
  parseIntBody sign cs1 (toInt32 radix)

/-- `convertToDecimal(valueStr, base)` from the source: literally
`parseInt(valueStr, base)`. -/
def convertToDecimal (valueStr : String) (base : JsVal) : JsVal :=
  parseIntJS valueStr base

example : parseIntJS "1E" (.num 16) = .num 30 := by decide
example : parseIntJS "102" (.num 2) = .num 2 := by decide
example : parseIntJS "10" (.num 37) = .nan := by decide
example : parseIntJS "undefined" (.num 10) = .nan := by decide
example : parseIntJS "undefined" .nan = .nan := by decide
example : parseIntJS "-1e" (.num 16) = .num (-30) := by decide
example : parseIntJS " 12" (.num 10) = .num 12 := by decide
example : parseIntJS "0x1F" (.num 16) = .num 31 := by decide

/-! ### Facts about digits and `parseInt` -/

lemma digitVal_char_bounds {c : Char} {d : ℕ} (h : digitVal c = some d) :
    (48 ≤ c.toNat ∧ c.toNat ≤ 57) ∨ (97 ≤ c.toNat ∧ c.toNat ≤ 122) ∨
      (65 ≤ c.toNat ∧ c.toNat ≤ 90) := by
  unfold digitVal at h
  split_ifs at h with h1 h2 h3
  · exact Or.inl h1
  · exact Or.inr (Or.inl h2)
  · exact Or.inr (Or.inr h3)

lemma digitVal_lt_36 {c : Char} {d : ℕ} (h : digitVal c = some d) : d < 36 := by
  unfold digitVal at h
  split_ifs at h with h1 h2 h3 <;> simp only [Option.some.injEq] at h <;> omega

lemma digitVal_not_ws {c : Char} {d : ℕ} (h : digitVal c = some d) : isWS c = false := by
  have hb := digitVal_char_bounds h
  simp only [isWS, decide_eq_false_iff_not]
  omega

lemma digitVal_ne_dash {c : Char} {d : ℕ} (h : digitVal c = some d) : c ≠ '-' := by
  have hb := digitVal_char_bounds h
  intro hc
  rw [hc] at hb
  simp at hb

lemma digitVal_ne_plus {c : Char} {d : ℕ} (h : digitVal c = some d) : c ≠ '+' := by
  have hb := digitVal_char_bounds h
  intro hc
  rw [hc] at hb
  simp at hb

lemma toInt32_intCast {z : ℤ} (h1 : -2 ^ 31 ≤ z) (h2 : z < 2 ^ 31) :
    toInt32 (.num (z : ℚ)) = z := by
  have htr : ratTrunc (z : ℚ) = z := by
    unfold ratTrunc
    split_ifs with h
    · exact Int.floor_intCast z
    · rw [← Int.cast_neg, Int.floor_intCast]
      ring
  show (ratTrunc (z : ℚ) + 2 ^ 31) % 2 ^ 32 - 2 ^ 31 = z
  rw [htr]
  omega

lemma foldl_digitsVal (R : ℕ) :
    ∀ (ds : List ℕ) (acc : ℕ),
      ds.foldl (fun a d => a * R + d) acc = acc * R ^ ds.length + Nat.ofDigits R ds.reverse := by
  intro ds
  induction ds with
  | nil => intro acc; simp [Nat.ofDigits]
  | cons d ds ih =>
    intro acc
    rw [List.foldl_cons, ih, List.reverse_cons, Nat.ofDigits_append]
    simp only [List.length_reverse, List.length_cons, Nat.ofDigits, Nat.ofDigits_nil]
    push_cast
    ring

lemma digitsVal_eq_ofDigits (R : ℕ) (ds : List ℕ) :
    digitsVal R ds = Nat.ofDigits R ds.reverse := by
  unfold digitsVal
  rw [foldl_digitsVal]
  simp

lemma takeDigits_append (R : ℕ) :
    ∀ (p : List Char), (∀ c ∈ p, (digitVal c).isSome ∧ (digitVal c).getD 0 < R) →
    ∀ (rest : List Char), (∀ c ∈ rest.head?, ∀ d ∈ digitVal c, R ≤ d) →
      takeDigits R (p ++ rest) = p.map (fun c => (digitVal c).getD 0) := by
  intro p
  induction p with
  | nil =>
    intro _ rest hstop
    cases rest with
    | nil => rfl
    | cons c cs =>
      cases hd : digitVal c with
      | none => simp only [List.nil_append, List.map_nil, takeDigits, hd]
      | some d =>
        have hge := hstop c (by simp) d (by simp [hd])
        have hnlt : ¬ d < R := by omega
        simp only [List.nil_append, List.map_nil, takeDigits, hd, if_neg hnlt]
  | cons c p ih =>
    intro hv rest hstop
    obtain ⟨hsome, hlt⟩ := hv c (List.mem_cons_self c p)
    obtain ⟨d, hd⟩ := Option.isSome_iff_exists.mp hsome
    rw [hd] at hlt
    simp only [Option.getD_some] at hlt
    have hstep : takeDigits R ((c :: p) ++ rest) = d :: takeDigits R (p ++ rest) := by
      simp [takeDigits, hd, hlt]
    rw [hstep, ih (fun c hc => hv c (List.mem_cons_of_mem _ hc)) rest hstop]
    simp [hd]

/-- A character list whose head is a digit is unchanged by white-space
skipping and sign consumption, so `parseIntJS` on it goes straight to
`parseIntBody` with sign `1`. -/
lemma parseIntJS_of_digit_head {c₀ : Char} {t : List Char} {d₀ : ℕ}
    (hd₀ : digitVal c₀ = some d₀) (radix : JsVal) :
    parseIntJS ⟨c₀ :: t⟩ radix = parseIntBody 1 (c₀ :: t) (toInt32 radix) := by
  have hws : isWS c₀ = false := digitVal_not_ws hd₀
  have hdash : c₀ ≠ '-' := digitVal_ne_dash hd₀
  have hplus : c₀ ≠ '+' := digitVal_ne_plus hd₀
  simp only [parseIntJS]
  simp [List.dropWhile, hws, hdash, hplus]

/-- `parseIntBody` with an in-range radix and a leading run of valid
digits decodes exactly that run positionally. -/
lemma parseIntBody_valid (p rest : List Char) (b : ℤ)
    (hb2 : 2 ≤ b) (hb36 : b ≤ 36) (hp : p ≠ [])
    (hv : ∀ c ∈ p, (digitVal c).isSome ∧ ((digitVal c).getD 0 : ℤ) < b)
    (hstop : ∀ c ∈ rest.head?, ∀ d ∈ digitVal c, b ≤ (d : ℤ))
    (hhex : b = 16 → startsWith0x (p ++ rest) = false) :
    parseIntBody 1 (p ++ rest) b =
      .num ((Nat.ofDigits b.toNat ((p.map fun c => (digitVal c).getD 0).reverse) : ℕ) : ℚ) := by
  have h1 : ¬ (b ≠ 0 ∧ (b < 2 ∨ 36 < b)) := by omega
  have hhex' : ¬ ((b = 0 ∨ b = 16) ∧ startsWith0x (p ++ rest) = true) := by
    rintro ⟨hb, hsw⟩
    rcases hb with hb | hb
    · omega
    · rw [hhex hb] at hsw
      exact Bool.false_ne_true hsw
  have hb0 : ¬ b = 0 := by omega
  simp only [parseIntBody, if_neg h1, if_neg hhex', if_neg hb0]
  have hvnat : ∀ c ∈ p, (digitVal c).isSome ∧ (digitVal c).getD 0 < b.toNat := by
    intro c hc
    obtain ⟨h1, h2⟩ := hv c hc
    exact ⟨h1, by omega⟩
  have hstopnat : ∀ c ∈ rest.head?, ∀ d ∈ digitVal c, b.toNat ≤ d := by
    intro c hc d hd
    have := hstop c hc d hd
    omega
  rw [takeDigits_append b.toNat p hvnat rest hstopnat]
  have hne : p.map (fun c => (digitVal c).getD 0) ≠ [] := by
    simp [hp]
  rw [if_neg hne, digitsVal_eq_ofDigits]
  norm_num

/-- Decoding a string made of a leading run of valid digits for base `b`
followed by a non-digit tail: `parseInt` silently decodes just the run. -/
lemma parseIntJS_valid (p rest : List Char) (b : ℤ)
    (hb2 : 2 ≤ b) (hb36 : b ≤ 36) (hp : p ≠ [])
    (hv : ∀ c ∈ p, (digitVal c).isSome ∧ ((digitVal c).getD 0 : ℤ) < b)
    (hstop : ∀ c ∈ rest.head?, ∀ d ∈ digitVal c, b ≤ (d : ℤ))
    (hhex : b = 16 → startsWith0x (p ++ rest) = false) :
    parseIntJS ⟨p ++ rest⟩ (.num (b : ℚ)) =
      .num ((Nat.ofDigits b.toNat ((p.map fun c => (digitVal c).getD 0).reverse) : ℕ) : ℚ) := by
  obtain ⟨c₀, p', rfl⟩ : ∃ c₀ p', p = c₀ :: p' := by
    cases p with
    | nil => exact absurd rfl hp
    | cons a l => exact ⟨a, l, rfl⟩
  obtain ⟨hs₀, _⟩ := hv c₀ (List.mem_cons_self c₀ p')
  obtain ⟨d₀, hd₀⟩ := Option.isSome_iff_exists.mp hs₀
  have h32 : toInt32 (.num (b : ℚ)) = b := toInt32_intCast (by omega) (by omega)
  rw [show ((c₀ :: p') ++ rest) = c₀ :: (p' ++ rest) from rfl,
    parseIntJS_of_digit_head hd₀, h32]
  exact parseIntBody_valid (c₀ :: p') rest b hb2 hb36 hp hv hstop hhex

/-- A list of characters that are all valid hexadecimal digits never
starts with a `0x` / `0X` marker (`x` and `X` have digit value 33). -/
lemma no_hex_marker {l : List Char}
    (hv : ∀ c ∈ l, (digitVal c).isSome ∧ ((digitVal c).getD 0 : ℤ) < 16) :
    startsWith0x l = false := by
  cases l with
  | nil => rfl
  | cons c0 t0 =>
    cases t0 with
    | nil => rfl
    | cons c1 t =>
      simp only [startsWith0x, decide_eq_false_iff_not]
      rintro ⟨h0, hx⟩
      obtain ⟨_, hlt⟩ := hv c1 (by simp)
      rcases hx with hx | hx <;> rw [hx] at hlt <;> exact absurd hlt (by decide)

/-- **C3.** Base decoding correctness: for every base `b` in `[2,36]` and
every nonempty numeral string whose characters are all valid digits for
`b` (letters read case-insensitively as 10-35, which is what `digitVal`
computes), `convertToDecimal` returns exactly the standard
positional-numeral value `Nat.ofDigits` of the digit string. -/
theorem claim_C3_base_decoding (s : String) (b : ℤ)
    (hb2 : 2 ≤ b) (hb36 : b ≤ 36) (hne : s.data ≠ [])
    (hv : ∀ c ∈ s.data, (digitVal c).isSome ∧ ((digitVal c).getD 0 : ℤ) < b) :
    convertToDecimal s (.num (b : ℚ)) =
      .num ((Nat.ofDigits b.toNat ((s.data.map fun c => (digitVal c).getD 0).reverse) : ℕ) : ℚ) := by
  have hhex : b = 16 → startsWith0x (s.data ++ []) = false := by
    intro hb16
    rw [List.append_nil]
    exact no_hex_marker (fun c hc => hb16 ▸ hv c hc)
  have h := parseIntJS_valid s.data [] b hb2 hb36 hne hv (by simp) hhex
  rw [List.append_nil] at h
  exact h

/-- **C3** witness: the base-16 numeral `1E` decodes to 30. -/
theorem claim_C3_witness : convertToDecimal "1E" (.num 16) = .num 30 := by
  have h := claim_C3_base_decoding "1E" 16 (by norm_num) (by norm_num) (by decide) (by decide)
  have e1 : ((16 : ℤ) : ℚ) = (16 : ℚ) := by norm_num
  rw [e1] at h
  exact h.trans (by decide)

/-- **C4** (amended): `convertToDecimal` never raises an error.  A radix
whose `ToInt32` image is nonzero and outside `[2,36]` yields `NaN`; an
in-range radix decodes the longest leading run of valid digits (yielding
`NaN` only when that run is empty) and silently ignores any trailing
invalid characters; in particular the base-2 string `102` decodes to 2
rather than failing. -/
theorem claim_C4_amended :
    (∀ (s : String) (b : ℤ), -2 ^ 31 ≤ b → b < 2 ^ 31 → b ≠ 0 → (b < 2 ∨ 36 < b) →
        convertToDecimal s (.num (b : ℚ)) = .nan) ∧
    (∀ (p rest : List Char) (b : ℤ), 2 ≤ b → b ≤ 36 → p ≠ [] →
        (∀ c ∈ p, (digitVal c).isSome ∧ ((digitVal c).getD 0 : ℤ) < b) →
        (∀ c ∈ rest.head?, ∀ d ∈ digitVal c, b ≤ (d : ℤ)) →
        (b = 16 → startsWith0x (p ++ rest) = false) →
        convertToDecimal ⟨p ++ rest⟩ (.num (b : ℚ)) =
          .num ((Nat.ofDigits b.toNat ((p.map fun c => (digitVal c).getD 0).reverse) : ℕ) : ℚ)) ∧
    convertToDecimal "102" (.num 2) = .num 2 := by
  refine ⟨?_, ?_, by decide⟩
  · intro s b h1 h2 h3 h4
    show parseIntJS s (.num (b : ℚ)) = .nan
    unfold parseIntJS
    rw [toInt32_intCast h1 h2]
    simp only [parseIntBody, if_pos (show b ≠ 0 ∧ (b < 2 ∨ 36 < b) from ⟨h3, h4⟩)]
  · intro p rest b hb2 hb36 hp hv hstop hhex
    exact parseIntJS_valid p rest b hb2 hb36 hp hv hstop hhex

/-- **C4** counterexample: decoding the base-2 string `102` does not
fail; it silently decodes the valid prefix `10` and returns 2. -/
theorem claim_C4_counterexample :
    convertToDecimal "102" (.num 2) = .num 2 ∧ JsVal.num 2 ≠ JsVal.nan := by decide

/-- **C4** witness: base 37 is out of range, so decoding returns `NaN`. -/
theorem claim_C4_witness : convertToDecimal "50" (.num 37) = .nan := by
  have h := claim_C4_amended.1 "50" 37 (by norm_num) (by norm_num) (by norm_num) (by norm_num)
  have e1 : ((37 : ℤ) : ℚ) = (37 : ℚ) := by norm_num
  rw [e1] at h
  exact h

/-! ### The share parser and share selector -/

/-- A share entry as it appears in the input document: a `base` field and
a `value` field, each possibly missing (missing = JS `undefined`). -/
structure RawShare where
  base : Option String
  value : Option String
deriving DecidableEq

/-- An input document as produced by `JSON.parse`: the `keys` member
(`none` when the document has no such member) carrying its optional `n`
and `k` integer fields, and all remaining members in enumeration order,
each a share-index key string with its `RawShare` value. -/
structure Doc where
  keys : Option (Option ℤ × Option ℤ)
  shares : List (String × RawShare)
deriving DecidableEq

/-- The string JS passes to `parseInt` for a possibly-missing field: a
missing field is `undefined`, which string coercion renders as the
eight-character string `undefined`. -/
def fieldStr (f : Option String) : String := f.getD "undefined"

/-- JS object property write `m[k] = v`: an existing key keeps its
position and gets the new value, a fresh key is appended. -/
def updateAssoc (m : List (JsVal × JsVal)) (k : JsVal) (v : JsVal) :
    List (JsVal × JsVal) :=
  match m with
  | [] => [(k, v)]
  | (k', v') :: rest => if k' = k then (k, v) :: rest else (k', v') :: updateAssoc rest k v

/-- JS object property read `m[k]`: a missing key yields `undefined`. -/
def lookupJs (m : List (JsVal × JsVal)) (k : JsVal) : JsVal :=
  match m with
  | [] => .undef
  | (k', v) :: rest => if k' = k then v else lookupJs rest k

/-- `parseJsonInput` from the source.  The argument is `none` when
`JSON.parse` throws on unparseable text, in which case the exception
propagates (`none` result).  Destructuring `const (n, k) = data.keys`
throws when the `keys` member is absent.  Otherwise every other member
key is parsed as a base-10 index `x = parseInt(key, 10)`, the share is
decoded as `y = convertToDecimal(value, parseInt(base, 10))`, and
`shares[x] = y` is applied in enumeration order. -/
def parseJsonInput (input : Option Doc) :
    Option (Option ℤ × Option ℤ × List (JsVal × JsVal)) :=
  match input with
  | none => none
  | some data =>
    match data.keys with
    | none => none
    | some nk =>
      some (nk.1, nk.2, data.shares.foldl
        (fun m entry =>
          let x := parseIntJS entry.1 (.num 10)
          let base := parseIntJS (fieldStr entry.2.base) (.num 10)
          let y := convertToDecimal (fieldStr entry.2.value) base
          updateAssoc m x y) [])

/-- Rank used to order the non-number values in the key sort. -/
def keyRank : JsVal → ℕ
  | .undef => 0
  | .nan => 1
  | .num _ => 2

/-- Boolean order modelling the numeric sort comparator
`(a, b) => a - b` on decoded keys: numbers compare by value.  ECMA-262
leaves the sort order unspecified when the comparator returns `NaN`
(keys `NaN` or `undefined`); the model fixes the irrelevant order
`undefined < NaN < numbers`. -/
def keyLEb (a b : JsVal) : Bool :=
  match a, b with
  | .num p, .num q => decide (p ≤ q)
  | _, _ => decide (keyRank a ≤ keyRank b)

/-- `keyLEb` as a relation, for use with `List.insertionSort`. -/
def keyLE (a b : JsVal) : Prop := keyLEb a b = true

instance : DecidableRel keyLE := fun a b =>
  inferInstanceAs (Decidable (keyLEb a b = true))

instance : IsTotal JsVal keyLE := by
  constructor
  intro a b
  cases a <;> cases b <;> simp [keyLE, keyLEb, keyRank] <;> exact le_total _ _

instance : IsTrans JsVal keyLE := by
  constructor
  intro a b c hab hbc
  cases a <;> cases b <;> cases c <;>
    simp only [keyLE, keyLEb, keyRank, decide_eq_true_eq] at hab hbc ⊢ <;>
    first
    | trivial
    | exact le_trans hab hbc
    | omega

instance : IsAntisymm JsVal keyLE := by
  constructor
  intro a b hab hba
  cases a <;> cases b <;>
    simp only [keyLE, keyLEb, keyRank, decide_eq_true_eq] at hab hba <;>
    first
    | rfl
    | omega
    | (rw [le_antisymm hab hba])

/-- `selectShares(shares, k)` from the source: sort the key list
numerically ascending (the explicit sort makes the object's enumeration
order irrelevant) and copy the first `k` entries; reading the sorted key
array beyond its end yields `undefined`, and `shares[undefined]` is
`undefined`.  The loop `for (i = 0; i < k; i++)` runs `max k 0` times
for an integer `k` and not at all when `k` is `undefined`. -/
def selectShares (shares : List (JsVal × JsVal)) (k : Option ℤ) :
    List (JsVal × JsVal) :=
  let sortedKeys := List.insertionSort keyLE (shares.map Prod.fst)
  let iters : ℕ := match k with
    | some z => z.toNat
    | none => 0
  (List.range iters).foldl
    (fun selected i =>
      let key := sortedKeys.getD i .undef
      updateAssoc selected key (lookupJs shares key)) []

example :
    selectShares [(.num 2, .num 20), (.num 1, .num 10), (.num 3, .num 30)] (some 2) =
      [(.num 1, .num 10), (.num 2, .num 20)] := by decide
example :
    selectShares [(.num 1, .num 10)] (some 2) =
      [(.num 1, .num 10), (.undef, .undef)] := by decide
example :
    parseJsonInput (some ⟨some (some 3, some 2),
        [("1", ⟨some "10", some "5"⟩), ("2", ⟨some "16", some "1E"⟩)]⟩) =
      some (some 3, some 2, [(.num 1, .num 5), (.num 2, .num 30)]) := by decide

/-! ### Association-list lemmas for JS objects -/

lemma updateAssoc_map_fst (m : List (JsVal × JsVal)) (k : JsVal) (v : JsVal) :
    (updateAssoc m k v).map Prod.fst =
      if k ∈ m.map Prod.fst then m.map Prod.fst else m.map Prod.fst ++ [k] := by
  induction m with
  | nil => simp [updateAssoc]
  | cons e rest ih =>
    obtain ⟨k', v'⟩ := e
    by_cases hk : k' = k
    · subst hk
      simp [updateAssoc]
    · simp only [updateAssoc, if_neg hk, List.map_cons, ih]
      have : (k ∈ k' :: rest.map Prod.fst) = (k ∈ rest.map Prod.fst) := by
        simp [List.mem_cons, Ne.symm hk]
      by_cases hmem : k ∈ rest.map Prod.fst <;> simp [hmem, Ne.symm hk]

lemma updateAssoc_of_not_mem {m : List (JsVal × JsVal)} {k : JsVal} (v : JsVal)
    (h : k ∉ m.map Prod.fst) : updateAssoc m k v = m ++ [(k, v)] := by
  induction m with
  | nil => rfl
  | cons e rest ih =>
    obtain ⟨k', v'⟩ := e
    simp only [List.map_cons, List.mem_cons] at h
    push_neg at h
    simp only [updateAssoc, if_neg (Ne.symm h.1), List.cons_append]
    rw [ih h.2]

lemma lookupJs_updateAssoc (m : List (JsVal × JsVal)) (k : JsVal) (v : JsVal)
    (key : JsVal) :
    lookupJs (updateAssoc m k v) key = if k = key then v else lookupJs m key := by
  induction m with
  | nil => simp [updateAssoc, lookupJs]
  | cons e rest ih =>
    obtain ⟨k', v'⟩ := e
    by_cases hk : k' = k
    · subst hk
      by_cases hkey : k' = key <;> simp [updateAssoc, lookupJs, hkey]
    · by_cases hkey : k' = key
      · subst hkey
        simp [updateAssoc, if_neg hk, lookupJs, Ne.symm (by exact hk)]
      · simp [updateAssoc, if_neg hk, lookupJs, hkey, ih]

lemma lookupJs_of_not_mem {m : List (JsVal × JsVal)} {key : JsVal}
    (h : key ∉ m.map Prod.fst) : lookupJs m key = .undef := by
  induction m with
  | nil => rfl
  | cons e rest ih =>
    obtain ⟨k', v'⟩ := e
    simp only [List.map_cons, List.mem_cons] at h
    push_neg at h
    simp only [lookupJs, if_neg (Ne.symm h.1)]
    exact ih h.2

lemma lookupJs_mem {m : List (JsVal × JsVal)} {key : JsVal}
    (h : key ∈ m.map Prod.fst) : (key, lookupJs m key) ∈ m := by
  induction m with
  | nil => simp at h
  | cons e rest ih =>
    obtain ⟨k', v'⟩ := e
    by_cases hk : k' = key
    · subst hk
      simp [lookupJs]
    · simp only [List.map_cons, List.mem_cons] at h
      rcases h with h | h
    
      · exact absurd h.symm hk
      · simp only [lookupJs, if_neg hk]
        exact List.mem_cons_of_mem _ (ih h)

lemma lookupJs_eq_of_mem {m : List (JsVal × JsVal)} {key v : JsVal}
    (hnodup : (m.map Prod.fst).Nodup) (h : (key, v) ∈ m) :
    lookupJs m key = v := by
  induction m with
  | nil => simp at h
  | cons e rest ih =>
    obtain ⟨k', v'⟩ := e
    simp only [List.map_cons, List.nodup_cons] at hnodup
    rcases List.mem_cons.mp h with h | h
    · obtain ⟨h1, h2⟩ := Prod.mk.injEq .. ▸ h.symm
      simp [lookupJs, h1.symm, h2.symm]
    · have hkey : key ∈ rest.map Prod.fst := by
        exact List.mem_map_of_mem Prod.fst h
      have hne : k' ≠ key := fun hk => hnodup.1 (hk ▸ hkey)
      simp only [lookupJs, if_neg hne]
      exact ih hnodup.2 h

lemma updateAssoc_append_self {s : List (JsVal × JsVal)} {k v : JsVal}
    (h : k ∉ s.map Prod.fst) :
    updateAssoc (s ++ [(k, v)]) k v = s ++ [(k, v)] := by
  induction s with
  | nil => simp [updateAssoc]
  | cons e rest ih =>
    obtain ⟨k', v'⟩ := e
    simp only [List.map_cons, List.mem_cons] at h
    push_neg at h
    simp only [List.cons_append, updateAssoc, if_neg (Ne.symm h.1)]
    exact congrArg (fun l => (k', v') :: l) (ih h.2)


/-! ### Share-selection lemmas -/

lemma nodup_sortedKeys {shares : List (JsVal × JsVal)}
    (hnodup : (shares.map Prod.fst).Nodup) :
    (List.insertionSort keyLE (shares.map Prod.fst)).Nodup :=
  (List.perm_insertionSort keyLE (shares.map Prod.fst)).nodup_iff.mpr hnodup

lemma getElem_not_mem_take {l : List JsVal} (hnodup : l.Nodup) {i : ℕ}
    (hi : i < l.length) : l[i] ∉ l.take i := by
  intro hmem
  obtain ⟨j, hj, hget⟩ := List.mem_iff_getElem.mp hmem
  have hji : j < i := by
    rw [List.length_take] at hj
    omega
  rw [List.getElem_take] at hget
  have hinj := List.nodup_iff_injective_getElem.mp hnodup
  have hfin : (⟨j, by omega⟩ : Fin l.length) = ⟨i, hi⟩ := hinj hget
  have : j = i := congrArg Fin.val hfin
  omega

lemma sortedKeys_length (shares : List (JsVal × JsVal)) :
    (List.insertionSort keyLE (shares.map Prod.fst)).length = shares.length := by
  rw [(List.perm_insertionSort keyLE (shares.map Prod.fst)).length_eq, List.length_map]

/-- The copy loop of `selectShares`: with distinct keys and `kn` at most
the number of shares, the accumulated object is the list of the first
`kn` sorted keys, each paired with its value. -/
lemma selectShares_take (shares : List (JsVal × JsVal))
    (hnodup : (shares.map Prod.fst).Nodup) :
    ∀ kn, kn ≤ shares.length →
      (List.range kn).foldl
        (fun selected i =>
          let key := (List.insertionSort keyLE (shares.map Prod.fst)).getD i .undef
          updateAssoc selected key (lookupJs shares key)) [] =
        ((List.insertionSort keyLE (shares.map Prod.fst)).take kn).map
          (fun key => (key, lookupJs shares key)) := by
  intro kn
  induction kn with
  | zero => intro _; rfl
  | succ n ih =>
    intro hn
    have hnlt : n < (List.insertionSort keyLE (shares.map Prod.fst)).length := by
      rw [sortedKeys_length]
      omega
    rw [List.range_succ, List.foldl_append, ih (by omega)]
    simp only [List.foldl_cons, List.foldl_nil]
    rw [List.getD_eq_getElem _ _ hnlt]
    have hfst :
        ((((List.insertionSort keyLE (shares.map Prod.fst)).take n).map
          (fun key => (key, lookupJs shares key))).map Prod.fst) =
          (List.insertionSort keyLE (shares.map Prod.fst)).take n := by
      rw [List.map_map]
      have hcomp : (Prod.fst ∘ fun key => (key, lookupJs shares key)) = id :=
        funext fun x => rfl
      rw [hcomp, List.map_id]
    have hnm :
        (List.insertionSort keyLE (shares.map Prod.fst))[n] ∉
          ((((List.insertionSort keyLE (shares.map Prod.fst)).take n).map
            (fun key => (key, lookupJs shares key))).map Prod.fst) := by
      rw [hfst]
      exact getElem_not_mem_take (nodup_sortedKeys hnodup) hnlt
    rw [updateAssoc_of_not_mem _ hnm, List.take_succ, List.getElem?_eq_getElem hnlt]
    simp only [List.map_append, List.map_take]
    simp

/-- `selectShares` with distinct keys and `k` within range equals the
first `k` sorted keys paired with their values. -/
lemma selectShares_eq_take (shares : List (JsVal × JsVal)) (k : ℕ)
    (hnodup : (shares.map Prod.fst).Nodup) (hk : k ≤ shares.length) :
    selectShares shares (some (k : ℤ)) =
      ((List.insertionSort keyLE (shares.map Prod.fst)).take k).map
        (fun key => (key, lookupJs shares key)) := by
  have h := selectShares_take shares hnodup k hk
  simpa [selectShares, Int.toNat_natCast] using h

lemma lookupJs_perm {m m' : List (JsVal × JsVal)} (hperm : m.Perm m')
    (hnodup : (m.map Prod.fst).Nodup) (key : JsVal) :
    lookupJs m key = lookupJs m' key := by
  have hnodup' : (m'.map Prod.fst).Nodup := ((hperm.map Prod.fst).nodup_iff).mp hnodup
  by_cases hmem : key ∈ m.map Prod.fst
  · have h1 := lookupJs_mem hmem
    have h2 : (key, lookupJs m key) ∈ m' := hperm.mem_iff.mp h1
    exact (lookupJs_eq_of_mem hnodup' h2).symm
  · have hmem' : key ∉ m'.map Prod.fst := fun h =>
      hmem ((hperm.map Prod.fst).mem_iff.mpr h)
    rw [lookupJs_of_not_mem hmem, lookupJs_of_not_mem hmem']

lemma map_fst_pairs (shares : List (JsVal × JsVal)) (l : List JsVal) :
    (l.map (fun key => (key, lookupJs shares key))).map Prod.fst = l := by
  rw [List.map_map]
  have hcomp : (Prod.fst ∘ fun key => (key, lookupJs shares key)) = id :=
    funext fun x => rfl
  rw [hcomp, List.map_id]

/-- **C7.** Selection determinism: on a decoded share mapping with
distinct numeric indices and at least `k` entries, `selectShares` returns
exactly the `k` entries with the numerically smallest indices, sorted
ascending, each index paired with its original decoded value — and the
result does not depend on the enumeration order of the mapping. -/
theorem claim_C7_selection (shares : List (JsVal × JsVal)) (k : ℕ)
    (hnodup : (shares.map Prod.fst).Nodup)
    (hnum : ∀ key ∈ shares.map Prod.fst, ∃ q : ℚ, key = JsVal.num q)
    (hk : k ≤ shares.length) :
    selectShares shares (some (k : ℤ)) =
      ((List.insertionSort keyLE (shares.map Prod.fst)).take k).map
        (fun key => (key, lookupJs shares key)) ∧
    (selectShares shares (some (k : ℤ))).length = k ∧
    List.Sorted keyLE ((selectShares shares (some (k : ℤ))).map Prod.fst) ∧
    (∀ p ∈ selectShares shares (some (k : ℤ)), p ∈ shares) ∧
    (∀ key ∈ shares.map Prod.fst,
        key ∉ (selectShares shares (some (k : ℤ))).map Prod.fst →
          ∀ key' ∈ (selectShares shares (some (k : ℤ))).map Prod.fst, keyLE key' key) ∧
    (∀ shares' : List (JsVal × JsVal), shares.Perm shares' →
        selectShares shares' (some (k : ℤ)) = selectShares shares (some (k : ℤ))) := by
  have heq := selectShares_eq_take shares k hnodup hk
  have hselfst : (selectShares shares (some (k : ℤ))).map Prod.fst =
      (List.insertionSort keyLE (shares.map Prod.fst)).take k := by
    rw [heq, map_fst_pairs]
  have hsorted := List.sorted_insertionSort keyLE (shares.map Prod.fst)
  refine ⟨heq, ?_, ?_, ?_, ?_, ?_⟩
  · rw [heq, List.length_map, List.length_take, sortedKeys_length]
    omega
  · rw [hselfst]
    exact List.Pairwise.sublist (List.take_sublist _ _) hsorted
  · intro p hp
    rw [heq] at hp
    obtain ⟨key, hkey, rfl⟩ := List.mem_map.mp hp
    have hmem : key ∈ shares.map Prod.fst :=
      (List.perm_insertionSort keyLE (shares.map Prod.fst)).mem_iff.mp
        (List.mem_of_mem_take hkey)
    exact lookupJs_mem hmem
  · intro key hkey hnot key' hkey'
    rw [hselfst] at hnot hkey'
    have hksk : key ∈ List.insertionSort keyLE (shares.map Prod.fst) :=
      (List.perm_insertionSort keyLE (shares.map Prod.fst)).mem_iff.mpr hkey
    have hdrop : key ∈ (List.insertionSort keyLE (shares.map Prod.fst)).drop k := by
      have := (List.take_append_drop k
        (List.insertionSort keyLE (shares.map Prod.fst))) ▸ hksk
      rcases List.mem_append.mp this with h | h
      · exact absurd h hnot
      · exact h
    have hpw := (List.take_append_drop k
      (List.insertionSort keyLE (shares.map Prod.fst))) ▸ hsorted
    exact (List.pairwise_append.mp hpw).2.2 key' hkey' key hdrop
  · intro shares' hperm
    have hkeysperm : (shares'.map Prod.fst).Perm (shares.map Prod.fst) :=
      (hperm.map Prod.fst).symm
    have hsorteq : List.insertionSort keyLE (shares'.map Prod.fst) =
        List.insertionSort keyLE (shares.map Prod.fst) :=
      List.eq_of_perm_of_sorted
        ((List.perm_insertionSort keyLE (shares'.map Prod.fst)).trans
          (hkeysperm.trans (List.perm_insertionSort keyLE (shares.map Prod.fst)).symm))
        (List.sorted_insertionSort keyLE (shares'.map Prod.fst))
        (List.sorted_insertionSort keyLE (shares.map Prod.fst))
    have hlook : lookupJs shares' = lookupJs shares :=
      funext fun key => (lookupJs_perm hperm hnodup key).symm
    simp only [selectShares, hsorteq, hlook]

/-- **C7** witness: two shares in descending order with `k = 2` come back
as the two smallest indices in ascending order. -/
theorem claim_C7_witness :
    selectShares [(.num 2, .num 20), (.num 1, .num 10)] (some ((2 : ℕ) : ℤ)) =
      ((List.insertionSort keyLE
          ([((.num 2 : JsVal), (.num 20 : JsVal)),
            (.num 1, .num 10)].map Prod.fst)).take 2).map
        (fun key => (key, lookupJs [(.num 2, .num 20), (.num 1, .num 10)] key)) :=
  (claim_C7_selection _ 2 (by decide)
    (by
      intro key hkey
      simp only [List.map_cons, List.map_nil, List.mem_cons,
        List.not_mem_nil, or_false] at hkey
      rcases hkey with rfl | rfl
      · exact ⟨2, rfl⟩
      · exact ⟨1, rfl⟩)
    (by norm_num)).1

/-- The copy loop of `selectShares` run past the number of shares: every
out-of-range iteration reads key `undefined` and value `undefined`, so
exactly one junk entry `(undefined, undefined)` is appended. -/
lemma selectShares_overrun (shares : List (JsVal × JsVal))
    (hnodup : (shares.map Prod.fst).Nodup)
    (hundef : JsVal.undef ∉ shares.map Prod.fst) :
    ∀ j, 1 ≤ j →
      (List.range (shares.length + j)).foldl
        (fun selected i =>
          let key := (List.insertionSort keyLE (shares.map Prod.fst)).getD i .undef
          updateAssoc selected key (lookupJs shares key)) [] =
        ((List.insertionSort keyLE (shares.map Prod.fst)).map
          (fun key => (key, lookupJs shares key))) ++ [(.undef, .undef)] := by
  have htake : (List.insertionSort keyLE (shares.map Prod.fst)).take shares.length =
      List.insertionSort keyLE (shares.map Prod.fst) :=
    List.take_all_of_le (by rw [sortedKeys_length])
  have hlookundef : lookupJs shares .undef = .undef := lookupJs_of_not_mem hundef
  have hgetDundef : ∀ i, shares.length ≤ i →
      (List.insertionSort keyLE (shares.map Prod.fst)).getD i .undef = .undef := by
    intro i hi
    exact List.getD_eq_default _ _ (by rw [sortedKeys_length]; exact hi)
  have hundefsk : JsVal.undef ∉ List.insertionSort keyLE (shares.map Prod.fst) :=
    fun h => hundef ((List.perm_insertionSort keyLE (shares.map Prod.fst)).mem_iff.mp h)
  intro j hj
  induction j with
  | zero => omega
  | succ n ih =>
    by_cases hn : n = 0
    · subst hn
      rw [List.range_succ, List.foldl_append,
        selectShares_take shares hnodup shares.length le_rfl]
      simp only [List.foldl_cons, List.foldl_nil]
      rw [hgetDundef _ le_rfl, hlookundef, htake]
      apply updateAssoc_of_not_mem
      rw [map_fst_pairs]
      exact hundefsk
    · have hn1 : 1 ≤ n := by omega
      rw [show shares.length + (n + 1) = (shares.length + n) + 1 from rfl,
        List.range_succ, List.foldl_append, ih hn1]
      simp only [List.foldl_cons, List.foldl_nil]
      rw [hgetDundef _ (by omega), hlookundef]
      apply updateAssoc_append_self
      rw [map_fst_pairs]
      exact hundefsk

/-- **C5** (amended): with fewer decoded shares than `k`, `selectShares`
does not fail and does not stop short: it returns all the shares sorted
by index, followed by a single junk entry whose key and value are both
`undefined` (from reading the sorted key array out of range). -/
theorem claim_C5_insufficient (shares : List (JsVal × JsVal)) (k : ℕ)
    (hnodup : (shares.map Prod.fst).Nodup)
    (hundef : JsVal.undef ∉ shares.map Prod.fst)
    (hk : shares.length < k) :
    selectShares shares (some (k : ℤ)) =
      ((List.insertionSort keyLE (shares.map Prod.fst)).map
        (fun key => (key, lookupJs shares key))) ++ [(.undef, .undef)] := by
  have h := selectShares_overrun shares hnodup hundef (k - shares.length) (by omega)
  rw [show shares.length + (k - shares.length) = k from by omega] at h
  simpa [selectShares, Int.toNat_natCast] using h

/-- **C5** witness: one share, `k = 2`. -/
theorem claim_C5_witness :
    selectShares [(.num 1, .num 10)] (some ((2 : ℕ) : ℤ)) =
      ((List.insertionSort keyLE
          ([((.num 1 : JsVal), (.num 10 : JsVal))].map Prod.fst)).map
        (fun key => (key, lookupJs [(.num 1, .num 10)] key))) ++ [(.undef, .undef)] :=
  claim_C5_insufficient _ 2 (by decide) (by decide) (by norm_num)

/-- **C5** counterexample: with one decoded share and `k = 2`,
`selectShares` does not fail with an error and does not refuse to return
a too-small subset: it returns normally, with a junk
`(undefined, undefined)` entry that is not a share at all. -/
theorem claim_C5_counterexample :
    selectShares [(.num 1, .num 10)] (some 2) =
      [(.num 1, .num 10), (.undef, .undef)] ∧
    ((JsVal.undef, JsVal.undef) ∈
      selectShares [(.num 1, .num 10)] (some 2)) := by decide

/-- **C6** (amended): `parseJsonInput` fails only when the text is not
parseable JSON or the `keys` member is absent altogether; whenever
`keys` is present it succeeds, passing the possibly-missing `n` and `k`
through verbatim.  A `keys` object lacking `n` or `k`, or a share entry
lacking `base` or `value`, does not raise an error. -/
theorem claim_C6_malformed :
    parseJsonInput none = none ∧
    (∀ d : Doc, d.keys = none → parseJsonInput (some d) = none) ∧
    (∀ (d : Doc) (nk : Option ℤ × Option ℤ), d.keys = some nk →
        ∃ s, parseJsonInput (some d) = some (nk.1, nk.2, s)) := by
  refine ⟨rfl, ?_, ?_⟩
  · intro d hd
    simp [parseJsonInput, hd]
  · intro d nk hd
    exact ⟨d.shares.foldl (fun m entry =>
        updateAssoc m (parseIntJS entry.1 (.num 10))
          (convertToDecimal (fieldStr entry.2.value)
            (parseIntJS (fieldStr entry.2.base) (.num 10)))) [],
      by simp [parseJsonInput, hd]⟩

/-- **C6** counterexample: a document whose `keys` member is present but
has neither `n` nor `k`, and whose single share entry lacks both `base`
and `value`, parses successfully (the share decodes to `NaN`) instead of
failing with a malformed-input error. -/
theorem claim_C6_counterexample :
    parseJsonInput (some ⟨some (none, none), [("1", ⟨none, none⟩)]⟩) =
      some (none, none, [(.num 1, .nan)]) := by decide

/-- **C6** witness: a document with no `keys` member at all does fail. -/
theorem claim_C6_witness :
    parseJsonInput (some ⟨none, [("1", ⟨some "10", some "5"⟩)]⟩) = none :=
  claim_C6_malformed.2.1 ⟨none, [("1", ⟨some "10", some "5"⟩)]⟩ rfl

/-! ### The polynomial reconstructor -/

/-- One equation (matrix row plus right-hand side) of a linear system. -/
structure Eqn where
  co : List ℚ
  rhs : ℚ
deriving DecidableEq

/-- Dot product of two lists (truncated at the shorter). -/
def dotProd : List ℚ → List ℚ → ℚ
  | [], _ => 0
  | _ :: _, [] => 0
  | a :: as, b :: bs => a * b + dotProd as bs

/-- A vector satisfies an equation when the dot product of the row with
the vector equals the right-hand side. -/
def satEq (v : List ℚ) (e : Eqn) : Prop := dotProd e.co v = e.rhs

/-- A vector satisfies a system when it satisfies every equation. -/
def satSys (v : List ℚ) (es : List Eqn) : Prop := ∀ e ∈ es, satEq v e

/-- First equation with a nonzero leading coefficient (the pivot), and
the remaining equations in their original order. -/
def pivotSplit : List Eqn → Option (Eqn × List Eqn)
  | [] => none
  | e :: es =>
    if e.co.headD 0 ≠ 0 then some (e, es)
    else (pivotSplit es).map (fun pr => (pr.1, e :: pr.2))

/-- Eliminate the leading column of row `r` using pivot row `p`,
dropping the leading entry. -/
def reduceRow (p r : Eqn) : Eqn :=
  let c := r.co.headD 0 / p.co.headD 0
  ⟨List.zipWith (fun a b => a - c * b) r.co.tail p.co.tail, r.rhs - c * p.rhs⟩

/-- Gaussian elimination with pivoting and back substitution on a square
system of `n` equations in `n` unknowns.  This models `math.lusolve`,
which computes the same (unique) solution of a nonsingular system by LU
decomposition over exact arithmetic; `none` models the library throwing
when no pivot exists (singular system). -/
def solveLin : ℕ → List Eqn → Option (List ℚ)
  | 0, _ => some []
  | n + 1, es =>
    match pivotSplit es with
    | none => none
    | some pr =>
      match solveLin n (pr.2.map (reduceRow pr.1)) with
      | none => none
      | some vt =>
        some (((pr.1.rhs - dotProd pr.1.co.tail vt) / pr.1.co.headD 0) :: vt)

/-- The row of powers `[x^(k-1), ..., x^0]` built by the source's inner
loop (`for i = k-1 downTo 0 push x^i`). -/
def rowOf (x : ℚ) (k : ℕ) : List ℚ := (List.range k).map (fun j => x ^ (k - 1 - j))

/-- `math.lusolve(A, ys)`: solve the square system `A · coeffs = ys`. -/
def lusolve (A : List (List ℚ)) (ys : List ℚ) : Option (List ℚ) :=
  solveLin A.length (List.zipWith (fun co r => ⟨co, r⟩) A ys)

/-- The `Number(v)` coercion applied when reading entries: finite numbers
unchanged; `NaN` and `undefined` have no finite value, in which case the
solve is poisoned (modelled as failure). -/
def toNumber : JsVal → Option ℚ
  | .num q => some q
  | .nan => none
  | .undef => none

/-- `reconstructPolynomial(selectedShares)` from the source: read the
entries as `(Number(x), Number(y))` pairs, build the Vandermonde matrix
with rows `[x^(k-1), ..., x^0]`, and solve `A · coeffs = ys`. -/
def reconstructPolynomial (sel : List (JsVal × JsVal)) : Option (List ℚ) :=
  match sel.mapM (fun p => (toNumber p.1).bind fun x => (toNumber p.2).map fun y => (x, y)) with
  | none => none
  | some pts =>
    let xs := pts.map Prod.fst
    let ys := pts.map Prod.snd
    let A := xs.map (fun x => rowOf x xs.length)
    lusolve A ys

/-- `findConstantTerm(coeffs)` from the source:
`coeffs[coeffs.length - 1]`, which is `undefined` on an empty array
(hence the `Option`). -/
def findConstantTerm (coeffs : List ℚ) : Option ℚ := coeffs.getLast?

/-- Value at `x` of a coefficient list ordered highest degree first:
`sum of coeffs[i] * x^(k-1-i)`, the specification formula. -/
def evalPoly (coeffs : List ℚ) (x : ℚ) : ℚ :=
  ∑ i ∈ Finset.range coeffs.length, coeffs.getD i 0 * x ^ (coeffs.length - 1 - i)

example :
    reconstructPolynomial [(.num 1, .num 10), (.num 2, .num 20), (.num 3, .num 30)] =
      some [0, 10, 0] := by
  norm_num [reconstructPolynomial, lusolve, solveLin, pivotSplit, reduceRow, dotProd,
    rowOf, toNumber, List.mapM, List.mapM.loop, List.range_succ]
example : evalPoly [0, 10, 0] 3 = 30 := by
  norm_num [evalPoly, Finset.sum_range_succ]
example : findConstantTerm [0, 10, 0] = some 0 := by decide

/-! ### Correctness of the linear solver -/

lemma dotProd_nil_right : ∀ as : List ℚ, dotProd as [] = 0
  | [] => rfl
  | _ :: _ => rfl

lemma dotProd_zipWith_sub (c : ℚ) :
    ∀ (xs ys v : List ℚ), xs.length = ys.length →
      dotProd (List.zipWith (fun a b => a - c * b) xs ys) v =
        dotProd xs v - c * dotProd ys v := by
  intro xs
  induction xs with
  | nil =>
    intro ys v h
    have : ys = [] := List.eq_nil_of_length_eq_zero h.symm
    subst this
    simp [dotProd]
  | cons a as ih =>
    intro ys v h
    cases ys with
    | nil => simp at h
    | cons b bs =>
      cases v with
      | nil =>
        simp only [List.zipWith_cons_cons, dotProd_nil_right]
        ring
      | cons w ws =>
        simp only [List.zipWith_cons_cons, dotProd]
        rw [ih bs ws (by simpa using h)]
        ring

lemma pivotSplit_none {es : List Eqn} :
    pivotSplit es = none → ∀ e ∈ es, e.co.headD 0 = 0 := by
  induction es with
  | nil => intro _ e he; simp at he
  | cons e es ih =>
    intro h f hf
    unfold pivotSplit at h
    split_ifs at h with hh
    push_neg at hh
    cases hps : pivotSplit es with
    | some pr => rw [hps] at h; simp at h
    | none =>
      rcases List.mem_cons.mp hf with rfl | hf
      · exact hh
      · exact ih hps f hf

lemma pivotSplit_some {es : List Eqn} {p : Eqn} {rest : List Eqn} :
    pivotSplit es = some (p, rest) → p.co.headD 0 ≠ 0 ∧ es.Perm (p :: rest) := by
  induction es generalizing p rest with
  | nil => intro h; simp [pivotSplit] at h
  | cons e es ih =>
    intro h
    unfold pivotSplit at h
    split_ifs at h with hh
    · simp only [Option.some.injEq, Prod.mk.injEq] at h
      obtain ⟨rfl, rfl⟩ := h
      exact ⟨hh, List.Perm.refl _⟩
    · cases hps : pivotSplit es with
      | none => rw [hps] at h; simp at h
      | some pr =>
        obtain ⟨p', rest'⟩ := pr
        rw [hps] at h
        simp only [Option.map_some', Option.some.injEq, Prod.mk.injEq] at h
        obtain ⟨rfl, rfl⟩ := h
        obtain ⟨hp, hperm⟩ := ih hps
        exact ⟨hp, (hperm.cons e).trans (List.Perm.swap _ e rest')⟩

lemma reduceRow_length {p r : Eqn} {n : ℕ}
    (hp : p.co.length = n + 1) (hr : r.co.length = n + 1) :
    (reduceRow p r).co.length = n := by
  simp only [reduceRow, List.length_zipWith, List.length_tail, hp, hr]
  omega

lemma reduced_lengths {p : Eqn} {rest : List Eqn} {n : ℕ}
    (hp : p.co.length = n + 1) (hrest : ∀ e ∈ rest, e.co.length = n + 1) :
    ∀ e ∈ rest.map (reduceRow p), e.co.length = n := by
  intro e he
  obtain ⟨r, hr, rfl⟩ := List.mem_map.mp he
  exact reduceRow_length hp (hrest r hr)

/-- Back-substitution step: a solution of the reduced system extends to a
solution of the pivot equation together with the unreduced rows. -/
lemma sat_extend {p : Eqn} {n : ℕ} (hp : p.co.length = n + 1)
    (hpivot : p.co.headD 0 ≠ 0) {rest : List Eqn}
    (hrlen : ∀ e ∈ rest, e.co.length = n + 1)
    {vt : List ℚ} (hvt : satSys vt (rest.map (reduceRow p))) :
    satSys (((p.rhs - dotProd p.co.tail vt) / p.co.headD 0) :: vt) (p :: rest) := by
  obtain ⟨ph, pt, hpco⟩ : ∃ ph pt, p.co = ph :: pt := by
    cases hco : p.co with
    | nil => rw [hco] at hp; simp at hp
    | cons a l => exact ⟨a, l, rfl⟩
  have hph : ph ≠ 0 := by
    rw [hpco] at hpivot
    simpa using hpivot
  have hpt : pt.length = n := by
    rw [hpco] at hp
    simpa using hp
  intro e he
  rcases List.mem_cons.mp he with rfl | he
  · show dotProd e.co (((e.rhs - dotProd e.co.tail vt) / e.co.headD 0) :: vt) = e.rhs
    rw [hpco]
    simp only [List.headD_cons, List.tail_cons, dotProd]
    field_simp
  · obtain ⟨rh, rt, hrco⟩ : ∃ rh rt, e.co = rh :: rt := by
      cases hco : e.co with
      | nil => have := hrlen e he; rw [hco] at this; simp at this
      | cons a l => exact ⟨a, l, rfl⟩
    have hrt : rt.length = n := by
      have := hrlen e he
      rw [hrco] at this
      simpa using this
    have hred := hvt (reduceRow p e) (List.mem_map_of_mem (reduceRow p) he)
    show dotProd e.co (((p.rhs - dotProd p.co.tail vt) / p.co.headD 0) :: vt) = e.rhs
    simp only [satEq, reduceRow] at hred
    rw [hrco, hpco] at hred
    simp only [List.headD_cons, List.tail_cons] at hred
    rw [dotProd_zipWith_sub (rh / ph) rt pt vt (by omega)] at hred
    rw [hrco, hpco]
    simp only [List.headD_cons, List.tail_cons, dotProd]
    have h1 : dotProd rt vt = e.rhs - rh / ph * p.rhs + rh / ph * dotProd pt vt := by
      linarith [hred]
    rw [h1]
    field_simp
    ring

/-- Soundness: a vector returned by the solver has length `n` and
satisfies every equation of the system. -/
lemma solveLin_sound :
    ∀ (n : ℕ) (es : List Eqn), es.length = n → (∀ e ∈ es, e.co.length = n) →
      ∀ v, solveLin n es = some v → v.length = n ∧ satSys v es := by
  intro n
  induction n with
  | zero =>
    intro es hlen _ v hv
    have hes : es = [] := List.eq_nil_of_length_eq_zero hlen
    subst hes
    simp only [solveLin, Option.some.injEq] at hv
    subst hv
    exact ⟨rfl, fun e he => absurd he (List.not_mem_nil e)⟩
  | succ n ih =>
    intro es hlen hco v hv
    unfold solveLin at hv
    cases hps : pivotSplit es with
    | none => rw [hps] at hv; simp at hv
    | some pr =>
      obtain ⟨p, rest⟩ := pr
      rw [hps] at hv
      dsimp only at hv
      obtain ⟨hpivot, hperm⟩ := pivotSplit_some hps
      have hmem : ∀ e ∈ p :: rest, e ∈ es := fun e he => hperm.mem_iff.mpr he
      have hp : p.co.length = n + 1 := hco p (hmem p (List.mem_cons_self p rest))
      have hrest : ∀ e ∈ rest, e.co.length = n + 1 := fun e he =>
        hco e (hmem e (List.mem_cons_of_mem p he))
      have hrlen : (rest.map (reduceRow p)).length = n := by
        rw [List.length_map]
        have := hperm.length_eq
        simp only [List.length_cons] at this
        omega
      cases hsl : solveLin n (rest.map (reduceRow p)) with
      | none => rw [hsl] at hv; simp at hv
      | some vt =>
        rw [hsl] at hv
        simp only [Option.some.injEq] at hv
        subst hv
        obtain ⟨hvtlen, hvtsat⟩ := ih (rest.map (reduceRow p)) hrlen
          (reduced_lengths hp hrest) vt hsl
        have hext := sat_extend hp hpivot hrest hvtsat
        refine ⟨by simp [hvtlen], fun e he => hext e (hperm.mem_iff.mp he)⟩

/-- Completeness: when a square system has exactly one solution of the
right length, the solver finds a pivot at every stage and succeeds. -/
lemma solveLin_complete :
    ∀ (n : ℕ) (es : List Eqn), es.length = n → (∀ e ∈ es, e.co.length = n) →
      (∃! v : List ℚ, v.length = n ∧ satSys v es) →
      ∃ v, solveLin n es = some v := by
  intro n
  induction n with
  | zero => intro es _ _ _; exact ⟨[], rfl⟩
  | succ n ih =>
    intro es hlen hco hex
    obtain ⟨v, ⟨hvlen, hvsat⟩, huniq⟩ := hex
    obtain ⟨v0, vt, rfl⟩ : ∃ v0 vt, v = v0 :: vt := by
      cases v with
      | nil => simp at hvlen
      | cons a l => exact ⟨a, l, rfl⟩
    have hvtlen : vt.length = n := by simpa using hvlen
    unfold solveLin
    cases hps : pivotSplit es with
    | none =>
      exfalso
      have hall := pivotSplit_none hps
      have hsat' : satSys ((v0 + 1) :: vt) es := by
        intro e he
        have h0 : e.co.headD 0 = 0 := hall e he
        have hsatv := hvsat e he
        obtain ⟨eh, et, heco⟩ : ∃ eh et, e.co = eh :: et := by
          cases hc : e.co with
          | nil =>
            have := hco e he
            rw [hc] at this
            simp at this
          | cons a l => exact ⟨a, l, rfl⟩
        have heh : eh = 0 := by
          rw [heco] at h0
          simpa using h0
        show dotProd e.co ((v0 + 1) :: vt) = e.rhs
        simp only [satEq] at hsatv
        rw [heco] at hsatv ⊢
        rw [heh] at hsatv ⊢
        simp only [dotProd] at hsatv ⊢
        linarith [hsatv]
      have h1 := huniq ((v0 + 1) :: vt) ⟨by simpa using hvtlen, hsat'⟩
      have h2 := huniq (v0 :: vt) ⟨by simpa using hvtlen, hvsat⟩
      rw [← h2] at h1
      simp at h1
    | some pr =>
      obtain ⟨p, rest⟩ := pr
      dsimp only
      obtain ⟨hpivot, hperm⟩ := pivotSplit_some hps
      have hmem : ∀ e ∈ p :: rest, e ∈ es := fun e he => hperm.mem_iff.mpr he
      have hp : p.co.length = n + 1 := hco p (hmem p (List.mem_cons_self p rest))
      have hrest : ∀ e ∈ rest, e.co.length = n + 1 := fun e he =>
        hco e (hmem e (List.mem_cons_of_mem p he))
      have hrlen : (rest.map (reduceRow p)).length = n := by
        rw [List.length_map]
        have := hperm.length_eq
        simp only [List.length_cons] at this
        omega
      obtain ⟨ph, pt, hpco⟩ : ∃ ph pt, p.co = ph :: pt := by
        cases hc : p.co with
        | nil => rw [hc] at hp; simp at hp
        | cons a l => exact ⟨a, l, rfl⟩
      have hph : ph ≠ 0 := by rw [hpco] at hpivot; simpa using hpivot
      have hpt : pt.length = n := by rw [hpco] at hp; simpa using hp
      -- the tail of the unique solution satisfies every reduced row
      have hvtred : satSys vt (rest.map (reduceRow p)) := by
        intro f hf
        obtain ⟨r, hr, rfl⟩ := List.mem_map.mp hf
        obtain ⟨rh, rt, hrco⟩ : ∃ rh rt, r.co = rh :: rt := by
          cases hc : r.co with
          | nil =>
            have := hrest r hr
            rw [hc] at this
            simp at this
          | cons a l => exact ⟨a, l, rfl⟩
        have hrt : rt.length = n := by
          have := hrest r hr
          rw [hrco] at this
          simpa using this
        have hsr := hvsat r (hmem r (List.mem_cons_of_mem p hr))
        have hsp := hvsat p (hmem p (List.mem_cons_self p rest))
        simp only [satEq] at hsr hsp
        rw [hrco] at hsr
        rw [hpco] at hsp
        simp only [dotProd] at hsr hsp
        show satEq vt (reduceRow p r)
        simp only [satEq, reduceRow]
        rw [hrco, hpco]
        simp only [List.headD_cons, List.tail_cons]
        rw [dotProd_zipWith_sub (rh / ph) rt pt vt (by omega)]
        have h1 : dotProd rt vt = r.rhs - rh * v0 := by linarith [hsr]
        have h2 : dotProd pt vt = p.rhs - ph * v0 := by linarith [hsp]
        rw [h1, h2]
        field_simp
        ring
      -- the reduced system again has exactly one solution
      have hexred : ∃! w : List ℚ, w.length = n ∧ satSys w (rest.map (reduceRow p)) := by
        refine ⟨vt, ⟨hvtlen, hvtred⟩, ?_⟩
        intro wt ⟨hwtlen, hwtsat⟩
        have hext := sat_extend hp hpivot hrest hwtsat
        have hsat : satSys (((p.rhs - dotProd p.co.tail wt) / p.co.headD 0) :: wt) es :=
          fun e he => hext e (hperm.mem_iff.mp he)
        have := huniq (((p.rhs - dotProd p.co.tail wt) / p.co.headD 0) :: wt)
          ⟨by simpa using hwtlen, hsat⟩
        exact (List.cons.injEq .. ▸ this).2 ▸ rfl
      obtain ⟨wt, hwt⟩ := ih (rest.map (reduceRow p)) hrlen (reduced_lengths hp hrest) hexred
      rw [hwt]
      exact ⟨_, rfl⟩

/-! ### Unique solvability of the Vandermonde system -/

lemma dotProd_eq_sum :
    ∀ (as bs : List ℚ), as.length = bs.length →
      dotProd as bs = ∑ i ∈ Finset.range as.length, as.getD i 0 * bs.getD i 0 := by
  intro as
  induction as with
  | nil => intro bs h; simp [dotProd]
  | cons a as ih =>
    intro bs h
    cases bs with
    | nil => simp at h
    | cons b bs =>
      simp only [dotProd, List.length_cons]
      rw [Finset.sum_range_succ' (fun i => (a :: as).getD i 0 * (b :: bs).getD i 0)]
      simp only [List.getD_cons_succ, List.getD_cons_zero]
      rw [ih bs (by simpa using h)]
      ring

/-- Unique solvability of the (column-reversed) Vandermonde system with
distinct nodes, via the nonzero Vandermonde determinant. -/
lemma vandermonde_exists_unique {k : ℕ} (xs ys : Fin k → ℚ)
    (hinj : Function.Injective xs) :
    ∃! c : Fin k → ℚ, ∀ i, ∑ j : Fin k, xs i ^ (k - 1 - (j : ℕ)) * c j = ys i := by
  classical
  set M : Matrix (Fin k) (Fin k) ℚ :=
    Matrix.of fun i j => xs i ^ (k - 1 - (j : ℕ)) with hM
  have hMsub : M = (Matrix.vandermonde xs).submatrix id (Fin.revPerm : Equiv.Perm (Fin k)) := by
    ext i j
    simp only [hM, Matrix.of_apply, Matrix.submatrix_apply, Matrix.vandermonde_apply,
      id_eq, Fin.revPerm_apply]
    congr 1
    rw [Fin.val_rev]
    omega
  have hMdet : M.det ≠ 0 := by
    rw [hMsub, Matrix.det_permute' (Fin.revPerm : Equiv.Perm (Fin k)) (Matrix.vandermonde xs)]
    have hv : (Matrix.vandermonde xs).det ≠ 0 :=
      Matrix.det_vandermonde_ne_zero_iff.mpr hinj
    have hs : ((Equiv.Perm.sign (Fin.revPerm : Equiv.Perm (Fin k)) : ℤ) : ℚ) ≠ 0 := by
      rcases Int.units_eq_one_or (Equiv.Perm.sign (Fin.revPerm : Equiv.Perm (Fin k))) with h | h <;>
        rw [h] <;> norm_num
    exact mul_ne_zero hs hv
  have hunit : IsUnit M.det := isUnit_iff_ne_zero.mpr hMdet
  have hsum : ∀ (c : Fin k → ℚ) (i : Fin k),
      M.mulVec c i = ∑ j : Fin k, xs i ^ (k - 1 - (j : ℕ)) * c j := by
    intro c i
    simp [Matrix.mulVec, Matrix.dotProduct, hM]
  have hMc : M.mulVec (M⁻¹.mulVec ys) = ys := by
    rw [Matrix.mulVec_mulVec, Matrix.mul_nonsing_inv M hunit, Matrix.one_mulVec]
  refine ⟨M⁻¹.mulVec ys, fun i => by rw [← hsum, hMc], ?_⟩
  intro c hc
  have hMc' : M.mulVec c = ys := funext fun i => by rw [hsum c i]; exact hc i
  calc c = (M⁻¹ * M).mulVec c := by
        rw [Matrix.nonsing_inv_mul M hunit, Matrix.one_mulVec]
    _ = M⁻¹.mulVec (M.mulVec c) := (Matrix.mulVec_mulVec c M⁻¹ M).symm
    _ = M⁻¹.mulVec ys := by rw [hMc']

/-- The linear system the source builds from the selected points: row
`i` is `[x_i^(k-1), ..., x_i^0] · coeffs = y_i`. -/
def sysOf (pts : List (ℚ × ℚ)) : List Eqn :=
  pts.map (fun p => ⟨rowOf p.1 pts.length, p.2⟩)

lemma rowOf_length (x : ℚ) (k : ℕ) : (rowOf x k).length = k := by
  simp [rowOf]

lemma satEq_rowOf_fin {x y : ℚ} {v : List ℚ} {k : ℕ} (hlen : v.length = k) :
    satEq v ⟨rowOf x k, y⟩ ↔
      (∑ j : Fin k, x ^ (k - 1 - (j : ℕ)) * v.getD j 0) = y := by
  unfold satEq
  show dotProd (rowOf x k) v = y ↔ _
  rw [dotProd_eq_sum (rowOf x k) v (by simp [rowOf, hlen]), rowOf_length,
    ← Fin.sum_univ_eq_sum_range (fun i => (rowOf x k).getD i 0 * v.getD i 0) k]
  have hrow : ∀ j : Fin k, (rowOf x k).getD (j : ℕ) 0 = x ^ (k - 1 - (j : ℕ)) := by
    intro j
    unfold rowOf
    rw [List.getD_eq_getElem _ _ (by simpa using j.isLt)]
    simp
  rw [Finset.sum_congr rfl (fun j _ => by rw [hrow j])]

lemma evalPoly_eq_sum_fin (v : List ℚ) (x : ℚ) {k : ℕ} (hlen : v.length = k) :
    evalPoly v x = ∑ j : Fin k, x ^ (k - 1 - (j : ℕ)) * v.getD j 0 := by
  unfold evalPoly
  rw [hlen, ← Fin.sum_univ_eq_sum_range (fun i => v.getD i 0 * x ^ (k - 1 - i)) k]
  exact Finset.sum_congr rfl (fun j _ => by ring)

lemma satEq_rowOf_eval {x y : ℚ} {v : List ℚ} {k : ℕ} (hlen : v.length = k) :
    satEq v ⟨rowOf x k, y⟩ ↔ evalPoly v x = y := by
  rw [satEq_rowOf_fin hlen, ← evalPoly_eq_sum_fin v x hlen]

/-- A vector of the right length satisfies the source's system exactly
when the polynomial it encodes passes through every point. -/
lemma satSys_sysOf_iff (pts : List (ℚ × ℚ)) (v : List ℚ)
    (hlen : v.length = pts.length) :
    satSys v (sysOf pts) ↔ ∀ p ∈ pts, evalPoly v p.1 = p.2 := by
  constructor
  · intro h p hp
    exact (satEq_rowOf_eval hlen).mp
      (h ⟨rowOf p.1 pts.length, p.2⟩ (List.mem_map_of_mem _ hp))
  · intro h e he
    obtain ⟨p, hp, rfl⟩ := List.mem_map.mp he
    exact (satEq_rowOf_eval hlen).mpr (h p hp)

/-- With distinct x-coordinates, the interpolation system has exactly
one solution of the right length. -/
lemma sysOf_exists_unique (pts : List (ℚ × ℚ))
    (hnd : (pts.map Prod.fst).Nodup) :
    ∃! v : List ℚ, v.length = pts.length ∧ satSys v (sysOf pts) := by
  classical
  have hinj : Function.Injective (fun i : Fin pts.length => (pts.get i).1) := by
    intro i j hij
    have hb1 : (i : ℕ) < (pts.map Prod.fst).length := by simp [i.isLt]
    have hb2 : (j : ℕ) < (pts.map Prod.fst).length := by simp [j.isLt]
    have h1 : (pts.map Prod.fst).get ⟨i, hb1⟩ = (pts.map Prod.fst).get ⟨j, hb2⟩ := by
      simp only [List.get_eq_getElem, List.getElem_map]
      exact hij
    have h2 := List.nodup_iff_injective_get.mp hnd h1
    have h3 := congrArg Fin.val h2
    exact Fin.ext h3
  obtain ⟨c, hc, hcuniq⟩ := vandermonde_exists_unique
    (fun i : Fin pts.length => (pts.get i).1)
    (fun i : Fin pts.length => (pts.get i).2) hinj
  have hgetD : ∀ j : Fin pts.length, (List.ofFn c).getD (j : ℕ) 0 = c j := by
    intro j
    rw [List.getD_eq_getElem _ _ (by simp [j.isLt])]
    simp
  refine ⟨List.ofFn c, ⟨List.length_ofFn c, ?_⟩, ?_⟩
  · rw [satSys_sysOf_iff _ _ (List.length_ofFn c)]
    intro p hp
    obtain ⟨i, hi⟩ := List.mem_iff_get.mp hp
    rw [← hi, evalPoly_eq_sum_fin (List.ofFn c) _ (List.length_ofFn c),
      Finset.sum_congr rfl (fun j _ => by rw [hgetD j])]
    exact hc i
  · intro w hw
    obtain ⟨hwlen, hwsat⟩ := hw
    have hcwsol : ∀ i : Fin pts.length,
        ∑ j : Fin pts.length,
          (pts.get i).1 ^ (pts.length - 1 - (j : ℕ)) * w.getD j 0 = (pts.get i).2 := by
      intro i
      have := (satSys_sysOf_iff _ _ hwlen).mp hwsat (pts.get i)
        (List.mem_iff_get.mpr ⟨i, rfl⟩)
      rw [evalPoly_eq_sum_fin w _ hwlen] at this
      exact this
    have hceq := hcuniq (fun j : Fin pts.length => w.getD (j : ℕ) 0) hcwsol
    apply List.ext_getElem (by simp [hwlen])
    intro n h1 h2
    have hn : n < pts.length := by rwa [hwlen] at h1
    have hcn := congrFun hceq ⟨n, hn⟩
    simp only at hcn
    rw [List.getElem_ofFn, ← hcn, List.getD_eq_getElem w 0 h1]

lemma mapM_num (pts : List (ℚ × ℚ)) :
    (pts.map fun p => (JsVal.num p.1, JsVal.num p.2)).mapM
      (fun p => (toNumber p.1).bind fun x => (toNumber p.2).map fun y => (x, y)) =
      some pts := by
  induction pts with
  | nil => rfl
  | cons p pts ih =>
    obtain ⟨a, b⟩ := p
    simp only [List.map_cons, List.mapM_cons, ih]
    rfl

lemma zipWith_mk_maps (pts : List (ℚ × ℚ)) (k : ℕ) :
    List.zipWith (fun co r => Eqn.mk co r)
      ((pts.map Prod.fst).map (fun x => rowOf x k)) (pts.map Prod.snd) =
      pts.map (fun p => ⟨rowOf p.1 k, p.2⟩) := by
  induction pts with
  | nil => rfl
  | cons p pts ih => simp [ih]

/-- On a list of genuinely numeric entries, `reconstructPolynomial` is
exactly the linear solve of the source's Vandermonde system. -/
lemma reconstruct_map_num (pts : List (ℚ × ℚ)) :
    reconstructPolynomial (pts.map fun p => (JsVal.num p.1, JsVal.num p.2)) =
      solveLin pts.length (sysOf pts) := by
  unfold reconstructPolynomial
  rw [mapM_num pts]
  show lusolve ((pts.map Prod.fst).map
      (fun x => rowOf x (pts.map Prod.fst).length)) (pts.map Prod.snd) = _
  unfold lusolve
  rw [zipWith_mk_maps]
  have h1 : ((pts.map Prod.fst).map
      (fun x => rowOf x (pts.map Prod.fst).length)).length = pts.length := by simp
  rw [h1, List.length_map]
  rfl

lemma sysOf_lengths (pts : List (ℚ × ℚ)) :
    (sysOf pts).length = pts.length ∧ ∀ e ∈ sysOf pts, e.co.length = pts.length := by
  constructor
  · simp [sysOf]
  · intro e he
    obtain ⟨p, _, rfl⟩ := List.mem_map.mp he
    exact rowOf_length p.1 pts.length

/-- **C2.** Interpolation postcondition: on exactly `k ≥ 1` points with
distinct x-coordinates, `reconstructPolynomial` succeeds with exactly
`k` coefficients ordered highest degree first, and the polynomial
`sum of coeff[i] * x^(k-1-i)` passes through every point (exactly, in
the idealised rational arithmetic, hence within any floating-point
tolerance). -/
theorem claim_C2_interpolation (pts : List (ℚ × ℚ)) (hne : pts ≠ [])
    (hnd : (pts.map Prod.fst).Nodup) :
    ∃ coeffs,
      reconstructPolynomial (pts.map fun p => (JsVal.num p.1, JsVal.num p.2)) =
        some coeffs ∧
      coeffs.length = pts.length ∧
      ∀ p ∈ pts, evalPoly coeffs p.1 = p.2 := by
  obtain ⟨hslen, hsco⟩ := sysOf_lengths pts
  obtain ⟨v, hv⟩ := solveLin_complete pts.length (sysOf pts) hslen hsco
    (sysOf_exists_unique pts hnd)
  obtain ⟨hvlen, hvsat⟩ := solveLin_sound pts.length (sysOf pts) hslen hsco v hv
  exact ⟨v, by rw [reconstruct_map_num pts]; exact hv, hvlen,
    (satSys_sysOf_iff pts v hvlen).mp hvsat⟩

/-- **C2** witness: three points of the line `y = 10x`. -/
theorem claim_C2_witness :
    ∃ coeffs,
      reconstructPolynomial ([((1 : ℚ), (10 : ℚ)), (2, 20), (3, 30)].map
        (fun p => (JsVal.num p.1, JsVal.num p.2))) = some coeffs ∧
      coeffs.length = 3 ∧
      ∀ p ∈ [((1 : ℚ), (10 : ℚ)), (2, 20), (3, 30)], evalPoly coeffs p.1 = p.2 := by
  have h := claim_C2_interpolation [((1 : ℚ), (10 : ℚ)), (2, 20), (3, 30)]
    (by decide) (by decide)
  simpa using h

/-- Uniqueness transfer: when a coefficient vector of the right length
interpolates all the (distinct-x) points, the reconstructor returns
exactly that vector. -/
lemma reconstruct_eq_of_interp (pts : List (ℚ × ℚ))
    (hnd : (pts.map Prod.fst).Nodup) (coeffs : List ℚ)
    (hlen : coeffs.length = pts.length)
    (hint : ∀ p ∈ pts, evalPoly coeffs p.1 = p.2) :
    reconstructPolynomial (pts.map fun p => (JsVal.num p.1, JsVal.num p.2)) =
      some coeffs := by
  obtain ⟨hslen, hsco⟩ := sysOf_lengths pts
  have hex := sysOf_exists_unique pts hnd
  obtain ⟨v, hv⟩ := solveLin_complete pts.length (sysOf pts) hslen hsco hex
  obtain ⟨hvlen, hvsat⟩ := solveLin_sound pts.length (sysOf pts) hslen hsco v hv
  obtain ⟨w, _, hwuniq⟩ := hex
  have h1 : v = w := hwuniq v ⟨hvlen, hvsat⟩
  have h2 : coeffs = w := hwuniq coeffs ⟨hlen, (satSys_sysOf_iff pts coeffs hlen).mpr hint⟩
  rw [reconstruct_map_num pts, hv, h1, h2]

/-- **C8** counterexample: with threshold 3 and shares `{1:10, 2:20, 3:30}`,
reconstruction does not yield the two-coefficient vector `[10, 0]`: the
solver of the 3×3 system returns three coefficients. -/
theorem claim_C8_counterexample :
    reconstructPolynomial
        (selectShares [(.num 1, .num 10), (.num 2, .num 20), (.num 3, .num 30)]
          (some 3)) ≠ some [10, 0] := by
  have hsel :
      selectShares [(.num 1, .num 10), (.num 2, .num 20), (.num 3, .num 30)]
        (some 3) =
      [(.num 1, .num 10), (.num 2, .num 20), (.num 3, .num 30)] := by decide
  rw [hsel]
  have hrec :
      reconstructPolynomial
        [(.num 1, .num 10), (.num 2, .num 20), (.num 3, .num 30)] =
      some [0, 10, 0] := by
    norm_num [reconstructPolynomial, lusolve, solveLin, pivotSplit, reduceRow,
      dotProd, rowOf, toNumber, List.mapM, List.mapM.loop, List.range_succ]
  rw [hrec]
  decide

/-- **C8** (amended): with threshold `k = 3` and decoded shares
`{1:10, 2:20, 3:30}` (the line `y = 10x`), selection keeps all three
shares, reconstruction yields the three-coefficient vector `[0, 10, 0]`
(the interpolating quadratic has zero leading coefficient), and the
constant term is `0`. -/
theorem claim_C8_line :
    selectShares [(.num 1, .num 10), (.num 2, .num 20), (.num 3, .num 30)]
        (some 3) =
      [(.num 1, .num 10), (.num 2, .num 20), (.num 3, .num 30)] ∧
    reconstructPolynomial
        [(.num 1, .num 10), (.num 2, .num 20), (.num 3, .num 30)] =
      some [0, 10, 0] ∧
    findConstantTerm [0, 10, 0] = some 0 := by
  refine ⟨by decide, ?_, by decide⟩
  norm_num [reconstructPolynomial, lusolve, solveLin, pivotSplit, reduceRow,
    dotProd, rowOf, toNumber, List.mapM, List.mapM.loop, List.range_succ]

/-! ### The result formatter -/

/-- A term the display loop emits; numeral rendering of the coefficient
is presentation-layer and left structural. -/
inductive FTerm : Type where
  | pow (c : ℚ) (d : ℕ)
  | bare (c : ℚ)
  | const (c : Option ℚ)
deriving DecidableEq

/-- The `polynomialTerms` array built by the source (`main`, and the
identical loop in the browser adapter's `reconstruct`): for each
non-constant index `i` in order, push `coeff x^degree` when the
coefficient is nonzero (`bare` is the ternary's dead degree-0 branch),
then always push the constant term. -/
def polynomialTerms (coeffs : List ℚ) : List FTerm :=
  ((List.range (coeffs.length - 1)).foldl
    (fun acc i =>
      let currentDegree := coeffs.length - 1 - i
      let coeff := coeffs.getD i 0
      if coeff ≠ 0 then
        acc ++ [if currentDegree ≠ 0 then FTerm.pow coeff currentDegree
                else FTerm.bare coeff]
      else acc) []) ++ [FTerm.const (findConstantTerm coeffs)]

lemma foldl_emit (g : ℕ → FTerm) (P : ℕ → Prop) [DecidablePred P] :
    ∀ (l : List ℕ) (acc : List FTerm),
      (l.foldl (fun acc i => if P i then acc ++ [g i] else acc) acc) =
        acc ++ l.filterMap (fun i => if P i then some (g i) else none) := by
  intro l
  induction l with
  | nil => intro acc; simp
  | cons i l ih =>
    intro acc
    by_cases h : P i
    · simp only [List.foldl_cons, if_pos h, ih, List.filterMap_cons, if_pos h,
        List.append_assoc, List.singleton_append]
    · simp only [List.foldl_cons, if_neg h, ih, List.filterMap_cons, if_neg h]

/-- **C9.** Formatter zero-elision: for every coefficient vector
`cs ++ [c]` (length at least 1), the rendered term list is exactly the
nonzero non-constant coefficients as `coeff·x^degree` terms in
descending degree order (degree `cs.length - i` for index `i`), followed
by the constant term — which is always emitted, even when `c = 0`. -/
theorem claim_C9_formatter (cs : List ℚ) (c : ℚ) :
    polynomialTerms (cs ++ [c]) =
      ((List.range cs.length).filterMap fun i =>
        if cs.getD i 0 ≠ 0 then some (FTerm.pow (cs.getD i 0) (cs.length - i))
        else none) ++ [FTerm.const (some c)] := by
  unfold polynomialTerms
  have hlen : (cs ++ [c]).length - 1 = cs.length := by simp
  have hconst : findConstantTerm (cs ++ [c]) = some c := by
    simp [findConstantTerm]
  rw [hlen, hconst]
  congr 1
  have hstep :
      (List.range cs.length).foldl
        (fun acc i =>
          if (cs ++ [c]).getD i 0 ≠ 0 then
            acc ++ [if cs.length - i ≠ 0 then
                FTerm.pow ((cs ++ [c]).getD i 0) (cs.length - i)
              else FTerm.bare ((cs ++ [c]).getD i 0)]
          else acc) [] =
        [] ++ (List.range cs.length).filterMap
          (fun i =>
            if (cs ++ [c]).getD i 0 ≠ 0 then
              some (if cs.length - i ≠ 0 then
                  FTerm.pow ((cs ++ [c]).getD i 0) (cs.length - i)
                else FTerm.bare ((cs ++ [c]).getD i 0))
            else none) :=
    foldl_emit
      (fun i => if cs.length - i ≠ 0 then
          FTerm.pow ((cs ++ [c]).getD i 0) (cs.length - i)
        else FTerm.bare ((cs ++ [c]).getD i 0))
      (fun i => (cs ++ [c]).getD i 0 ≠ 0) (List.range cs.length) []
  rw [hstep, List.nil_append]
  apply List.filterMap_congr
  intro i hi
  have hilt : i < cs.length := List.mem_range.mp hi
  have hget : (cs ++ [c]).getD i 0 = cs.getD i 0 := by
    rw [List.getD_eq_getElem _ _ (by simp; omega), List.getD_eq_getElem _ _ hilt]
    exact List.getElem_append_left hilt
  have hdeg : cs.length - i ≠ 0 := by omega
  rw [hget, if_pos hdeg]

/-! ### Duplicate-index behaviour of the share parser -/

/-- The decoded `(index, value)` pair of one document entry. -/
def decodeEntry (e : String × RawShare) : JsVal × JsVal :=
  (parseIntJS e.1 (.num 10),
   convertToDecimal (fieldStr e.2.value) (parseIntJS (fieldStr e.2.base) (.num 10)))

/-- Building a JS object by assigning the entries in order. -/
def objFold (es : List (JsVal × JsVal)) : List (JsVal × JsVal) :=
  es.foldl (fun m e => updateAssoc m e.1 e.2) []

lemma parseJsonInput_eq (d : Doc) (nk : Option ℤ × Option ℤ)
    (hk : d.keys = some nk) :
    parseJsonInput (some d) =
      some (nk.1, nk.2, objFold (d.shares.map decodeEntry)) := by
  simp only [parseJsonInput, hk, objFold, List.foldl_map, decodeEntry]

/-- The last value assigned to `key` by the entry list, if any. -/
def lastVal (es : List (JsVal × JsVal)) (key : JsVal) : Option JsVal :=
  es.foldl (fun acc e => if e.1 = key then some e.2 else acc) none

lemma foldl_lastVal (key : JsVal) :
    ∀ (es : List (JsVal × JsVal)) (a : Option JsVal),
      es.foldl (fun acc e => if e.1 = key then some e.2 else acc) a =
        match lastVal es key with
        | some v => some v
        | none => a := by
  intro es
  induction es with
  | nil => intro a; rfl
  | cons e es ih =>
    intro a
    rw [List.foldl_cons, ih]
    have hcons : lastVal (e :: es) key =
        match lastVal es key with
        | some v => some v
        | none => if e.1 = key then some e.2 else none := by
      show List.foldl (fun acc e => if e.1 = key then some e.2 else acc)
        (if e.1 = key then some e.2 else none) es = _
      exact ih (if e.1 = key then some e.2 else none)
    rw [hcons]
    cases lastVal es key with
    | some v => rfl
    | none =>
      by_cases h : e.1 = key
      · simp [h]
      · simp [h]

lemma lastVal_cons (e : JsVal × JsVal) (es : List (JsVal × JsVal)) (key : JsVal) :
    lastVal (e :: es) key =
      match lastVal es key with
      | some v => some v
      | none => if e.1 = key then some e.2 else none := by
  show List.foldl (fun acc e => if e.1 = key then some e.2 else acc)
    (if e.1 = key then some e.2 else none) es = _
  exact foldl_lastVal key es (if e.1 = key then some e.2 else none)

lemma lastVal_append (es fs : List (JsVal × JsVal)) (key : JsVal) :
    lastVal (es ++ fs) key =
      match lastVal fs key with
      | some v => some v
      | none => lastVal es key := by
  show List.foldl _ none (es ++ fs) = _
  rw [List.foldl_append]
  exact foldl_lastVal key fs (lastVal es key)

lemma lastVal_single (e : JsVal × JsVal) (key : JsVal) :
    lastVal [e] key = if e.1 = key then some e.2 else none := rfl

lemma lastVal_none_of {es : List (JsVal × JsVal)} {key : JsVal}
    (h : ∀ e ∈ es, e.1 ≠ key) : lastVal es key = none := by
  induction es with
  | nil => rfl
  | cons e es ih =>
    rw [lastVal_cons, ih (fun f hf => h f (List.mem_cons_of_mem e hf)),
      if_neg (h e (List.mem_cons_self e es))]

lemma lookupJs_foldl_update (key : JsVal) :
    ∀ (es : List (JsVal × JsVal)) (m : List (JsVal × JsVal)),
      lookupJs (es.foldl (fun m e => updateAssoc m e.1 e.2) m) key =
        match lastVal es key with
        | some v => v
        | none => lookupJs m key := by
  intro es
  induction es with
  | nil => intro m; rfl
  | cons e es ih =>
    intro m
    rw [List.foldl_cons, ih, lastVal_cons]
    cases lastVal es key with
    | some v => rfl
    | none =>
      rw [lookupJs_updateAssoc]
      by_cases h : e.1 = key
      · simp [h]
      · simp [h]

lemma lookupJs_objFold (es : List (JsVal × JsVal)) (key : JsVal) :
    lookupJs (objFold es) key =
      match lastVal es key with
      | some v => v
      | none => .undef :=
  lookupJs_foldl_update key es []

lemma updateAssoc_mem_keys (m : List (JsVal × JsVal)) (k v key : JsVal) :
    key ∈ (updateAssoc m k v).map Prod.fst ↔ key ∈ m.map Prod.fst ∨ key = k := by
  rw [updateAssoc_map_fst]
  by_cases h : k ∈ m.map Prod.fst
  · rw [if_pos h]
    constructor
    · exact Or.inl
    · rintro (hk | rfl)
      · exact hk
      · exact h
  · rw [if_neg h]
    simp

lemma updateAssoc_nodup {m : List (JsVal × JsVal)} (k v : JsVal)
    (h : (m.map Prod.fst).Nodup) : ((updateAssoc m k v).map Prod.fst).Nodup := by
  rw [updateAssoc_map_fst]
  by_cases hk : k ∈ m.map Prod.fst
  · rwa [if_pos hk]
  · rw [if_neg hk]
    simp only [List.Nodup, List.pairwise_append]
    refine ⟨h, by simp, ?_⟩
    intro a ha b hb
    simp only [List.mem_singleton] at hb
    subst hb
    intro hak
    subst hak
    exact hk ha

lemma objFold_keys_nodup (es : List (JsVal × JsVal)) :
    ((objFold es).map Prod.fst).Nodup := by
  have hgen : ∀ (l : List (JsVal × JsVal)) (m : List (JsVal × JsVal)),
      (m.map Prod.fst).Nodup →
      (((l.foldl (fun m e => updateAssoc m e.1 e.2) m)).map Prod.fst).Nodup := by
    intro l
    induction l with
    | nil => intro m hm; exact hm
    | cons e l ih =>
      intro m hm
      rw [List.foldl_cons]
      exact ih _ (updateAssoc_nodup e.1 e.2 hm)
  exact hgen es [] (by simp)

lemma mem_objFold_keys (es : List (JsVal × JsVal)) (key : JsVal) :
    key ∈ (objFold es).map Prod.fst ↔ ∃ e ∈ es, e.1 = key := by
  have hgen : ∀ (l : List (JsVal × JsVal)) (m : List (JsVal × JsVal)),
      (key ∈ ((l.foldl (fun m e => updateAssoc m e.1 e.2) m)).map Prod.fst ↔
        key ∈ m.map Prod.fst ∨ ∃ e ∈ l, e.1 = key) := by
    intro l
    induction l with
    | nil => intro m; simp
    | cons e l ih =>
      intro m
      rw [List.foldl_cons, ih, updateAssoc_mem_keys]
      constructor
      · rintro ((hm | rfl) | hex)
        · exact Or.inl hm
        · exact Or.inr ⟨e, List.mem_cons_self e l, rfl⟩
        · obtain ⟨f, hf, hfk⟩ := hex
          exact Or.inr ⟨f, List.mem_cons_of_mem e hf, hfk⟩
      · rintro (hm | ⟨f, hf, hfk⟩)
        · exact Or.inl (Or.inl hm)
        · rcases List.mem_cons.mp hf with rfl | hf
          · exact Or.inl (Or.inr hfk.symm)
          · exact Or.inr ⟨f, hf, hfk⟩
  rw [objFold, hgen es []]
  simp

/-- **C10.** Duplicate-index resolution: when two distinct document keys
parse to the same base-10 index `x` (and no other entry does), parsing
raises no error; the shares mapping holds a single entry for `x` whose
value is the decoded value of the later-enumerated entry, and every
lookup agrees with the mapping parsed from the document with the earlier
duplicate removed. -/
theorem claim_C10_duplicate (nk : Option ℤ × Option ℤ)
    (s₁ s₂ s₃ : List (String × RawShare)) (k₁ k₂ : String) (r₁ r₂ : RawShare)
    (x : ℚ) (hne : k₁ ≠ k₂)
    (hx1 : parseIntJS k₁ (.num 10) = .num x)
    (hx2 : parseIntJS k₂ (.num 10) = .num x)
    (hother : ∀ e ∈ s₁ ++ s₂ ++ s₃, parseIntJS e.1 (.num 10) ≠ .num x) :
    ∃ s s',
      parseJsonInput (some ⟨some nk, s₁ ++ (k₁, r₁) :: s₂ ++ (k₂, r₂) :: s₃⟩) =
        some (nk.1, nk.2, s) ∧
      parseJsonInput (some ⟨some nk, s₁ ++ s₂ ++ (k₂, r₂) :: s₃⟩) =
        some (nk.1, nk.2, s') ∧
      List.count (JsVal.num x) (s.map Prod.fst) = 1 ∧
      lookupJs s (.num x) =
        convertToDecimal (fieldStr r₂.value)
          (parseIntJS (fieldStr r₂.base) (.num 10)) ∧
      (∀ key, lookupJs s key = lookupJs s' key) := by
  have hd1 : (decodeEntry (k₁, r₁)).1 = .num x := hx1
  have hd2 : (decodeEntry (k₂, r₂)).1 = .num x := hx2
  have hmapL : ((s₁ ++ (k₁, r₁) :: s₂ ++ (k₂, r₂) :: s₃).map decodeEntry) =
      s₁.map decodeEntry ++ decodeEntry (k₁, r₁) ::
        (s₂.map decodeEntry ++ decodeEntry (k₂, r₂) :: s₃.map decodeEntry) := by
    simp
  have hmapL' : ((s₁ ++ s₂ ++ (k₂, r₂) :: s₃).map decodeEntry) =
      s₁.map decodeEntry ++
        (s₂.map decodeEntry ++ decodeEntry (k₂, r₂) :: s₃.map decodeEntry) := by
    simp
  have h3 : lastVal (s₃.map decodeEntry) (.num x) = none := by
    apply lastVal_none_of
    intro e he
    obtain ⟨f, hf, rfl⟩ := List.mem_map.mp he
    exact hother f (by simp [hf])
  have hLx : lastVal ((s₁ ++ (k₁, r₁) :: s₂ ++ (k₂, r₂) :: s₃).map decodeEntry)
      (.num x) = some (decodeEntry (k₂, r₂)).2 := by
    rw [hmapL]
    simp only [lastVal_append, lastVal_cons, h3, hd2, eq_self_iff_true, if_true]
  have hL'x : lastVal ((s₁ ++ s₂ ++ (k₂, r₂) :: s₃).map decodeEntry)
      (.num x) = some (decodeEntry (k₂, r₂)).2 := by
    rw [hmapL']
    simp only [lastVal_append, lastVal_cons, h3, hd2, eq_self_iff_true, if_true]
  have hkey : ∀ key,
      lastVal ((s₁ ++ (k₁, r₁) :: s₂ ++ (k₂, r₂) :: s₃).map decodeEntry) key =
      lastVal ((s₁ ++ s₂ ++ (k₂, r₂) :: s₃).map decodeEntry) key := by
    intro key
    by_cases hk : key = .num x
    · subst hk
      rw [hLx, hL'x]
    · rw [hmapL, hmapL']
      have hxk : JsVal.num x ≠ key := fun h => hk h.symm
      simp only [lastVal_append, lastVal_cons, hd1, hd2, if_neg hxk]
      cases lastVal (List.map decodeEntry s₃) key <;>
        cases lastVal (List.map decodeEntry s₂) key <;> rfl
  refine ⟨objFold ((s₁ ++ (k₁, r₁) :: s₂ ++ (k₂, r₂) :: s₃).map decodeEntry),
    objFold ((s₁ ++ s₂ ++ (k₂, r₂) :: s₃).map decodeEntry),
    parseJsonInput_eq _ nk rfl, parseJsonInput_eq _ nk rfl, ?_, ?_, ?_⟩
  · have hmem : JsVal.num x ∈
        (objFold ((s₁ ++ (k₁, r₁) :: s₂ ++ (k₂, r₂) :: s₃).map decodeEntry)).map
          Prod.fst := by
      rw [mem_objFold_keys]
      exact ⟨decodeEntry (k₁, r₁), List.mem_map_of_mem decodeEntry (by simp), hd1⟩
    exact List.count_eq_one_of_mem (objFold_keys_nodup _) hmem
  · rw [lookupJs_objFold, hLx]
    rfl
  · intro key
    rw [lookupJs_objFold, lookupJs_objFold, hkey key]

/-- **C10** witness: duplicate keys `5` and ` 5` (one with leading
white space) both parse to index 5; the later entry wins. -/
theorem claim_C10_witness :
    ∃ s s',
      parseJsonInput (some ⟨some (some 2, some 1),
          [("5", ⟨some "10", some "7"⟩), (" 5", ⟨some "10", some "9"⟩)]⟩) =
        some (some 2, some 1, s) ∧
      parseJsonInput (some ⟨some (some 2, some 1),
          [(" 5", ⟨some "10", some "9"⟩)]⟩) =
        some (some 2, some 1, s') ∧
      List.count (JsVal.num 5) (s.map Prod.fst) = 1 ∧
      lookupJs s (.num 5) =
        convertToDecimal (fieldStr (some "9"))
          (parseIntJS (fieldStr (some "10")) (.num 10)) ∧
      (∀ key, lookupJs s key = lookupJs s' key) := by
  have h := claim_C10_duplicate (some 2, some 1) [] [] [] "5" " 5"
    ⟨some "10", some "7"⟩ ⟨some "10", some "9"⟩ 5
    (by decide) (by decide) (by decide) (by intro e he; simp at he)
  simpa using h

/-! ### Numeral encoding, for the round-trip property -/

/-- Character for digit value `d`: `0`-`9` then `a`-`z`, as standard
numeral printing produces. -/
def digitChar (d : ℕ) : Char :=
  "0123456789abcdefghijklmnopqrstuvwxyz".data.getD d '0'

/-- Little-endian digits of `m` in base `b` (`fuel` bounds recursion). -/
def natToDigitsAux (b : ℕ) : ℕ → ℕ → List ℕ
  | 0, _ => []
  | fuel + 1, m => if m = 0 then [] else m % b :: natToDigitsAux b fuel (m / b)

/-- Big-endian digit list of `m` in base `b` (`[0]` for zero). -/
def natToBase (b m : ℕ) : List ℕ :=
  if m = 0 then [0] else (natToDigitsAux b m m).reverse

/-- The numeral string for `m` in base `b`. -/
def toBaseStr (b m : ℕ) : String := ⟨(natToBase b m).map digitChar⟩

lemma digitVal_digitChar {d : ℕ} (hd : d < 36) : digitVal (digitChar d) = some d := by
  have h : ∀ d : Fin 36, digitVal (digitChar (d : ℕ)) = some (d : ℕ) := by decide
  exact h ⟨d, hd⟩

lemma natToDigitsAux_lt {b : ℕ} (hb : 2 ≤ b) :
    ∀ fuel m, ∀ d ∈ natToDigitsAux b fuel m, d < b := by
  intro fuel
  induction fuel with
  | zero => intro m d hd; simp [natToDigitsAux] at hd
  | succ fuel ih =>
    intro m d hd
    by_cases h0 : m = 0
    · simp [natToDigitsAux, h0] at hd
    · simp only [natToDigitsAux, if_neg h0, List.mem_cons] at hd
      rcases hd with rfl | hd
      · exact Nat.mod_lt m (by omega)
      · exact ih (m / b) d hd

lemma natToDigitsAux_ofDigits {b : ℕ} (hb : 2 ≤ b) :
    ∀ fuel m, m ≤ fuel → Nat.ofDigits b (natToDigitsAux b fuel m) = m := by
  intro fuel
  induction fuel with
  | zero =>
    intro m hm
    have : m = 0 := by omega
    subst this
    simp [natToDigitsAux]
  | succ fuel ih =>
    intro m hm
    by_cases h0 : m = 0
    · subst h0
      simp [natToDigitsAux]
    · simp only [natToDigitsAux, if_neg h0, Nat.ofDigits_cons]
      have hdiv : m / b ≤ fuel := by
        have h1 : m / b < m := Nat.div_lt_self (by omega) (by omega)
        omega
      rw [ih (m / b) hdiv]
      exact Nat.mod_add_div m b

lemma natToBase_digits_lt {b : ℕ} (hb : 2 ≤ b) (m : ℕ) :
    ∀ d ∈ natToBase b m, d < b := by
  intro d hd
  unfold natToBase at hd
  split_ifs at hd with h0
  · simp at hd
    omega
  · rw [List.mem_reverse] at hd
    exact natToDigitsAux_lt hb m m d hd

lemma natToBase_ne_nil (b m : ℕ) : natToBase b m ≠ [] := by
  unfold natToBase
  split_ifs with h0
  · simp
  · intro h
    rw [List.reverse_eq_nil_iff] at h
    obtain ⟨f, rfl⟩ : ∃ f, m = f + 1 := ⟨m - 1, by omega⟩
    simp only [natToDigitsAux, if_neg h0] at h
    exact List.cons_ne_nil _ _ h

lemma ofDigits_natToBase {b : ℕ} (hb : 2 ≤ b) (m : ℕ) :
    Nat.ofDigits b (natToBase b m).reverse = m := by
  unfold natToBase
  split_ifs with h0
  · subst h0
    simp [Nat.ofDigits]
  · rw [List.reverse_reverse]
    exact natToDigitsAux_ofDigits hb m m le_rfl

/-- Round trip: encoding `m` in base `b` and decoding it with
`parseInt` recovers `m` exactly. -/
lemma parse_toBaseStr (b m : ℕ) (hb2 : 2 ≤ b) (hb36 : b ≤ 36) :
    parseIntJS (toBaseStr b m) (.num (b : ℚ)) = .num (m : ℚ) := by
  have hvalid : ∀ c ∈ (natToBase b m).map digitChar,
      (digitVal c).isSome ∧ ((digitVal c).getD 0 : ℤ) < (b : ℤ) := by
    intro c hc
    obtain ⟨d, hd, rfl⟩ := List.mem_map.mp hc
    have hdb := natToBase_digits_lt hb2 m d hd
    rw [digitVal_digitChar (by omega)]
    refine ⟨rfl, ?_⟩
    simp only [Option.getD_some]
    exact_mod_cast hdb
  have hcast : ((b : ℤ) : ℚ) = (b : ℚ) := by push_cast; rfl
  have h := parseIntJS_valid ((natToBase b m).map digitChar) [] (b : ℤ)
    (by omega) (by omega) (by simp [natToBase_ne_nil b m]) hvalid (by simp)
    (fun h16 => by
      rw [List.append_nil]
      exact no_hex_marker (fun c hc => by
        have := hvalid c hc
        rw [h16] at this
        exact_mod_cast this))
  rw [List.append_nil, hcast] at h
  have hstr : (⟨(natToBase b m).map digitChar⟩ : String) = toBaseStr b m := rfl
  rw [hstr] at h
  rw [h]
  have hmap : ((natToBase b m).map digitChar).map (fun c => (digitVal c).getD 0) =
      natToBase b m := by
    rw [List.map_map]
    have : ∀ d ∈ natToBase b m,
        ((fun c => (digitVal c).getD 0) ∘ digitChar) d = id d := by
      intro d hd
      have hdb := natToBase_digits_lt hb2 m d hd
      simp only [Function.comp_apply, id_eq]
      rw [digitVal_digitChar (by omega)]
      rfl
    rw [List.map_congr_left this, List.map_id]
  rw [hmap]
  have htn : (b : ℤ).toNat = b := Int.toNat_natCast b
  rw [htn, ofDigits_natToBase hb2 m]

lemma foldl_update_append :
    ∀ (es m : List (JsVal × JsVal)),
      (∀ e ∈ es, e.1 ∉ m.map Prod.fst) → (es.map Prod.fst).Nodup →
      es.foldl (fun m e => updateAssoc m e.1 e.2) m = m ++ es := by
  intro es
  induction es with
  | nil => intro m _ _; simp
  | cons e es ih =>
    intro m hdisj hnodup
    rw [List.foldl_cons, updateAssoc_of_not_mem e.2 (hdisj e (List.mem_cons_self e es))]
    have hnd' : (es.map Prod.fst).Nodup := by
      simp only [List.map_cons, List.nodup_cons] at hnodup
      exact hnodup.2
    have hdisj' : ∀ f ∈ es, f.1 ∉ (m ++ [(e.1, e.2)]).map Prod.fst := by
      intro f hf
      simp only [List.map_append, List.mem_append, List.map_cons, List.map_nil,
        List.mem_singleton]
      push_neg
      refine ⟨hdisj f (List.mem_cons_of_mem e hf), ?_⟩
      simp only [List.map_cons, List.nodup_cons] at hnodup
      intro hfe
      exact hnodup.1 (hfe ▸ List.mem_map_of_mem Prod.fst hf)
    rw [ih (m ++ [(e.1, e.2)]) hdisj' hnd']
    simp

/-- With pairwise-distinct keys, building the object keeps the entries
verbatim, in enumeration order. -/
lemma objFold_eq_self {es : List (JsVal × JsVal)}
    (h : (es.map Prod.fst).Nodup) : objFold es = es := by
  rw [objFold, foldl_update_append es [] (by simp) h]
  rfl

/-- The input document for the round-trip property: for each triple
`(i, (b, y))`, one share entry keyed by the decimal numeral of the index
`i`, with the base field the decimal numeral of `b` and the value the
base-`b` numeral of `y`. -/
def mkDoc (n k : ℤ) (entries : List (ℕ × ℕ × ℕ)) : Doc :=
  ⟨some (some n, some k),
   entries.map (fun t => (toBaseStr 10 t.1,
     ⟨some (toBaseStr 10 t.2.1), some (toBaseStr t.2.1 t.2.2)⟩))⟩

lemma parse_toBaseStr10 (m : ℕ) :
    parseIntJS (toBaseStr 10 m) (.num 10) = .num (m : ℚ) := by
  have h := parse_toBaseStr 10 m (by norm_num) (by norm_num)
  have h10 : ((10 : ℕ) : ℚ) = (10 : ℚ) := by norm_num
  rwa [h10] at h

lemma decodeEntry_mk (t : ℕ × ℕ × ℕ) (hb2 : 2 ≤ t.2.1) (hb36 : t.2.1 ≤ 36) :
    decodeEntry (toBaseStr 10 t.1,
      ⟨some (toBaseStr 10 t.2.1), some (toBaseStr t.2.1 t.2.2)⟩) =
      (.num (t.1 : ℚ), .num (t.2.2 : ℚ)) := by
  unfold decodeEntry fieldStr
  simp only [Option.getD_some]
  rw [show convertToDecimal (toBaseStr t.2.1 t.2.2) =
    parseIntJS (toBaseStr t.2.1 t.2.2) from rfl]
  rw [parse_toBaseStr10, parse_toBaseStr10, parse_toBaseStr t.2.1 t.2.2 hb2 hb36]

/-- The numeric value of a `JsVal`, for reading back the share pairs. -/
def qOf : JsVal → ℚ
  | .num q => q
  | .nan => 0
  | .undef => 0

/-- **C1.** Round trip: sample a polynomial with coefficient vector
`coeffs` (highest degree first, `k = coeffs.length ≥ 1`) at
`k` or more distinct integer indices, encode each sample `(i, (b, y))`
as a document entry (index and base in decimal, `y` as a base-`b`
numeral, bases arbitrary in `[2,36]`), and run the full pipeline
`parseJsonInput` → `selectShares` → `reconstructPolynomial` with
threshold `k`: the original coefficient vector comes back exactly
(idealised exact arithmetic, hence within any floating-point
tolerance). -/
theorem claim_C1_roundtrip (n : ℤ) (entries : List (ℕ × ℕ × ℕ)) (coeffs : List ℚ)
    (hk1 : 1 ≤ coeffs.length)
    (hkle : coeffs.length ≤ entries.length)
    (hnd : (entries.map Prod.fst).Nodup)
    (hb : ∀ t ∈ entries, 2 ≤ t.2.1 ∧ t.2.1 ≤ 36)
    (hy : ∀ t ∈ entries, ((t.2.2 : ℕ) : ℚ) = evalPoly coeffs (t.1 : ℚ)) :
    ∃ shares,
      parseJsonInput (some (mkDoc n (coeffs.length : ℤ) entries)) =
        some (some n, some (coeffs.length : ℤ), shares) ∧
      reconstructPolynomial (selectShares shares (some (coeffs.length : ℤ))) =
        some coeffs := by
  classical
  set L := entries.map
    (fun t => ((JsVal.num (t.1 : ℚ)), (JsVal.num (t.2.2 : ℚ)))) with hL
  have hdec : (mkDoc n (coeffs.length : ℤ) entries).shares.map decodeEntry = L := by
    rw [hL]
    show (entries.map (fun t => (toBaseStr 10 t.1,
      (⟨some (toBaseStr 10 t.2.1), some (toBaseStr t.2.1 t.2.2)⟩ : RawShare)))).map
        decodeEntry = _
    rw [List.map_map]
    exact List.map_congr_left (fun t ht => decodeEntry_mk t (hb t ht).1 (hb t ht).2)
  have hkeys : L.map Prod.fst =
      (entries.map Prod.fst).map (fun i : ℕ => JsVal.num (i : ℚ)) := by
    rw [hL, List.map_map, List.map_map]
    rfl
  have hLnodup : (L.map Prod.fst).Nodup := by
    rw [hkeys]
    apply List.Nodup.map ?_ hnd
    intro a b hab
    simp only [JsVal.num.injEq] at hab
    exact_mod_cast hab
  have hLlen : L.length = entries.length := by rw [hL, List.length_map]
  have hparse := parseJsonInput_eq (mkDoc n (coeffs.length : ℤ) entries)
    (some n, some (coeffs.length : ℤ)) rfl
  rw [hdec, objFold_eq_self hLnodup] at hparse
  refine ⟨L, hparse, ?_⟩
  rw [selectShares_eq_take L coeffs.length hLnodup (by omega)]
  set sk := List.insertionSort keyLE (L.map Prod.fst) with hsk
  set sel := (sk.take coeffs.length).map (fun key => (key, lookupJs L key))
    with hselval
  have hselmem : ∀ p ∈ sel, p ∈ L := by
    intro p hp
    rw [hselval] at hp
    obtain ⟨key, hkey', rfl⟩ := List.mem_map.mp hp
    have hkL : key ∈ L.map Prod.fst :=
      (List.perm_insertionSort keyLE (L.map Prod.fst)).mem_iff.mp
        (List.mem_of_mem_take hkey')
    exact lookupJs_mem hkL
  have hform : ∀ p ∈ L,
      ∃ t ∈ entries, p = (JsVal.num (t.1 : ℚ), JsVal.num (t.2.2 : ℚ)) := by
    intro p hp
    rw [hL] at hp
    obtain ⟨t, ht, rfl⟩ := List.mem_map.mp hp
    exact ⟨t, ht, rfl⟩
  set pts := sel.map (fun p => (qOf p.1, qOf p.2)) with hpts
  have hselpts : pts.map (fun p => (JsVal.num p.1, JsVal.num p.2)) = sel := by
    rw [hpts, List.map_map]
    have h : ∀ p ∈ sel,
        ((fun p => ((JsVal.num p.1 : JsVal), (JsVal.num p.2 : JsVal))) ∘
          (fun p => (qOf p.1, qOf p.2))) p = id p := by
      intro p hp
      obtain ⟨t, _, rfl⟩ := hform p (hselmem p hp)
      rfl
    rw [List.map_congr_left h, List.map_id]
  have hselfst : sel.map Prod.fst = sk.take coeffs.length :=
    map_fst_pairs L (sk.take coeffs.length)
  have htknodup : (sk.take coeffs.length).Nodup :=
    List.Nodup.sublist (List.take_sublist _ _) (nodup_sortedKeys hLnodup)
  have hptsfst : pts.map Prod.fst = (sk.take coeffs.length).map qOf := by
    rw [hpts, hselval, List.map_map, List.map_map]
    rfl
  have hptsnodup : (pts.map Prod.fst).Nodup := by
    rw [hptsfst]
    apply List.Nodup.map_on ?_ htknodup
    intro a ha b hb' hq
    have haL : a ∈ L.map Prod.fst :=
      (List.perm_insertionSort keyLE (L.map Prod.fst)).mem_iff.mp
        (List.mem_of_mem_take ha)
    have hbL : b ∈ L.map Prod.fst :=
      (List.perm_insertionSort keyLE (L.map Prod.fst)).mem_iff.mp
        (List.mem_of_mem_take hb')
    rw [hkeys] at haL hbL
    obtain ⟨i, _, rfl⟩ := List.mem_map.mp haL
    obtain ⟨j, _, rfl⟩ := List.mem_map.mp hbL
    show JsVal.num (i : ℚ) = JsVal.num (j : ℚ)
    have hq' : (i : ℚ) = (j : ℚ) := hq
    rw [hq']
  have hsklen : sk.length = L.length := sortedKeys_length L
  have hlen' : pts.length = coeffs.length := by
    rw [hpts, List.length_map, hselval, List.length_map, List.length_take, hsklen]
    omega
  have hint : ∀ p ∈ pts, evalPoly coeffs p.1 = p.2 := by
    intro p hp
    rw [hpts] at hp
    obtain ⟨q, hq, rfl⟩ := List.mem_map.mp hp
    obtain ⟨t, ht, rfl⟩ := hform q (hselmem q hq)
    show evalPoly coeffs (t.1 : ℚ) = (t.2.2 : ℚ)
    exact (hy t ht).symm
  have hrec := reconstruct_eq_of_interp pts hptsnodup coeffs hlen'.symm hint
  rw [hselpts] at hrec
  exact hrec

/-- **C1** witness: the line `y = 10x` (coefficients `[10, 0]`) sampled
at indices 1, 2, 3 with values encoded in bases 10, 16 and 2. -/
theorem claim_C1_witness :
    ∃ shares,
      parseJsonInput (some (mkDoc 3 (([10, 0] : List ℚ).length : ℤ)
          [(1, 10, 10), (2, 16, 20), (3, 2, 30)])) =
        some (some 3, some (([10, 0] : List ℚ).length : ℤ), shares) ∧
      reconstructPolynomial (selectShares shares
          (some (([10, 0] : List ℚ).length : ℤ))) = some [10, 0] :=
  claim_C1_roundtrip 3 [(1, 10, 10), (2, 16, 20), (3, 2, 30)] [10, 0]
    (by norm_num) (by norm_num) (by decide) (by decide)
    (by
      intro t ht
      fin_cases ht <;> norm_num [evalPoly, Finset.sum_range_succ])
